import Mathlib

/-!
Shallow embedding of the chunked long-form audio pipeline of the
JOMA-NEGOCIOS-DIGITAIS repository, together with proofs of the claims
about it.

The embedded code regions are:
* `utils/audioUtils.ts` (`combineAudioBuffers`, `mixAudioBuffers`,
  `exportWAV`'s `floatTo16BitPCM`, `exportMP3`'s float-to-int16 loop);
* `services/geminiService.ts` (`callGeminiApiWithRetries`);
* `components/AudioGenerator.tsx` (`handleGenerateAudio`: text
  segmentation, the batched concurrent dispatch loop, the all-or-nothing
  assembly step, and the cooperative-cancellation checks).

Float32 samples are modelled as rationals (`ℚ`); sample clamping and the
float-to-int16 conversions are exact on the values the claims exercise.
JavaScript arrays of samples become `List ℚ`; a Web Audio `AudioBuffer`
becomes the structure `AudioBuf` below.  Remote calls are modelled by an
explicit outcome function (attempt number to success/classified error),
and the asynchronous completion order inside a dispatch batch by an
explicit permutation of the batch's chunk indices.
-/

/-! ## Sample-domain primitives (utils/audioUtils.ts) -/

/-- Clamping of a sample to [-1, 1]: `Math.max(-1, Math.min(1, x))`. -/
def clampSample (x : ℚ) : ℚ := max (-1) (min 1 x)

/-- Truncation toward zero, as performed by JavaScript when a number is
converted to an integer (`ToIntegerOrInfinity`). -/
def truncateQ (x : ℚ) : Int := if 0 ≤ x then ⌊x⌋ else ⌈x⌉

/-- Wrapping of an integer into the signed 16-bit range, as performed by
`DataView.setInt16` and by assignment into an `Int16Array` (`ToInt16`). -/
def toInt16 (n : Int) : Int := (n + 32768) % 65536 - 32768

/-- One sample of `exportWAV`'s `floatTo16BitPCM`:
`let s = Math.max(-1, Math.min(1, input[i])); output.setInt16(offset, s < 0 ? s * 0x8000 : s * 0x7FFF, true)`. -/
def floatTo16BitPCM (s : ℚ) : Int :=
  let c := clampSample s
  toInt16 (truncateQ (if c < 0 then c * 32768 else c * 32767))

/-- One sample of `exportMP3`'s conversion loop:
`samples[i] = Math.max(-1, Math.min(1, channelData[i])) * 0x7FFF`. -/
def mp3FloatToInt16 (s : ℚ) : Int :=
  toInt16 (truncateQ (clampSample s * 32767))

/-! ## AudioBuffer model -/

/-- Model of a Web Audio `AudioBuffer`: a sample rate and one sample list
per channel.  `numberOfChannels` and `length` are derived as in the Web
Audio API (`length` is the per-channel frame count; the well-formedness
predicate `AudioBuf.WF` states that every channel holds exactly that many
frames, which `AudioContext.createBuffer` guarantees for real buffers). -/
structure AudioBuf where
  sampleRate : Nat
  chans : List (List ℚ)
  deriving Repr, DecidableEq

namespace AudioBuf

def numberOfChannels (b : AudioBuf) : Nat := b.chans.length

def length (b : AudioBuf) : Nat := (b.chans.getD 0 []).length

/-- Well-formedness: every channel has the buffer's frame count.  Real
`AudioBuffer`s always satisfy this. -/
def WF (b : AudioBuf) : Prop := ∀ ch ∈ b.chans, ch.length = b.length

instance (b : AudioBuf) : Decidable b.WF := by
  unfold WF; infer_instance

/-- Sample access: `getChannelData(c)[i]`, with 0 for out-of-range access
(out-of-range reads never occur in the embedded code paths under `WF`). -/
def sample (b : AudioBuf) (c i : Nat) : ℚ := (b.chans.getD c []).getD i 0

end AudioBuf

/-- Model of `combineAudioBuffers(context, buffers)` from
`utils/audioUtils.ts`.  The `AudioContext` argument is represented by the
context's sample rate, which is all the function reads from it.  Faithful
behaviour: an empty input returns a freshly created silent buffer
`context.createBuffer(1, 1, context.sampleRate)`; mismatched sample rate
or channel count throws; otherwise a buffer of the summed length is
created (`createBuffer` throws `NotSupportedError` for zero channels or
zero length) and every channel is the in-order concatenation of the
inputs' channel data. -/
def combineAudioBuffers (ctxSampleRate : Nat) (buffers : List AudioBuf) :
    Except String AudioBuf :=
  match buffers with
  | [] => .ok ⟨ctxSampleRate, [[0]]⟩
  | b0 :: _ =>
    if buffers.all fun b =>
        b.sampleRate == b0.sampleRate &&
        b.numberOfChannels == b0.numberOfChannels then
      let totalLength := (buffers.map AudioBuf.length).sum
      if b0.numberOfChannels = 0 ∨ totalLength = 0 then
        .error "NotSupportedError"
      else
        .ok ⟨b0.sampleRate,
          (List.range b0.numberOfChannels).map fun c =>
            (buffers.map fun b => b.chans.getD c []).flatten⟩
    else
      .error "All audio buffers must have the same sample rate and number of channels."

/-- Model of `mixAudioBuffers(context, speechBuffer, musicBuffer,
speechVolume, musicVolume)` from `utils/audioUtils.ts`.  The source
performs NO sample-rate or channel-count validation: it takes the speech
buffer's sample rate and channel count, creates the output buffer
(`createBuffer` throws for zero channels / zero length), and then calls
`musicBuffer.getChannelData(i)` for every speech channel index, which
throws `IndexSizeError` only when the music buffer has fewer channels
than the speech buffer.  Per output sample: speech contributes
`speechChannelData[i] * speechVolume` while `i < speechChannelData.length`,
music contributes `musicChannelData[i % musicChannelData.length] * musicVolume`
whenever `musicBuffer.length > 0`, and the sum is clamped to [-1, 1]. -/
def mixAudioBuffers (speechBuffer musicBuffer : AudioBuf)
    (speechVolume musicVolume : ℚ) : Except String AudioBuf :=
  let numberOfChannels := speechBuffer.numberOfChannels
  let longerLength := max speechBuffer.length musicBuffer.length
  if numberOfChannels = 0 ∨ longerLength = 0 then
    .error "NotSupportedError"
  else if musicBuffer.numberOfChannels < numberOfChannels then
    .error "IndexSizeError"
  else
    .ok ⟨speechBuffer.sampleRate,
      (List.range numberOfChannels).map fun channel =>
        let speechChannelData := speechBuffer.chans.getD channel []
        let musicChannelData := musicBuffer.chans.getD channel []
        (List.range longerLength).map fun i =>
          let s1 : ℚ :=
            if i < speechChannelData.length then
              speechChannelData.getD i 0 * speechVolume
            else 0
          let s2 : ℚ :=
            if 0 < musicBuffer.length then
              musicChannelData.getD (i % musicChannelData.length) 0 * musicVolume
            else 0
          clampSample (s1 + s2)⟩

/-! ## Retry model (services/geminiService.ts, `callGeminiApiWithRetries`) -/

/-- Classified form of a caught error, as computed by `parseGeminiError`
plus the boolean classifiers at the top of the catch block of
`callGeminiApiWithRetries`.  The claims are about the retry policy, which
only consumes this classified form, so the JSON-parsing of
`parseGeminiError` itself is abstracted into these fields. -/
structure ClassifiedError where
  /-- `errorCode === 429 || statusMessage === "RESOURCE_EXHAUSTED" || message includes quota text` -/
  isQuotaError : Bool
  /-- `errorCode === 503 || statusMessage === "UNAVAILABLE" || overload / internal-error message` -/
  isModelOverloadedError : Bool
  /-- message includes `"empty audio response"` or `"empty response from the Gemini API"` -/
  isEmptyResponseError : Bool
  /-- message includes `"Requested entity was not found."` -/
  isNotFoundKeyError : Bool
  /-- message includes `"403 Forbidden"` -/
  isForbidden : Bool
  /-- server-supplied `RetryInfo` delay in milliseconds, when present -/
  retryDelayMs : Option Nat
  deriving Repr, DecidableEq

/-- Outcome of one invocation of the wrapped `apiCall`. -/
inductive CallOutcome (α : Type) where
  | success (v : α)
  | failure (e : ClassifiedError)
  deriving Repr, DecidableEq

/-- Terminal (non-retried) error results of `callGeminiApiWithRetries`,
one constructor per distinct `throw` site. -/
inductive RetryError where
  /-- 429 with an explicit server delay: the original error is re-thrown
  immediately for the caller to manage a session-level cooldown. -/
  | quotaWithServerDelay (e : ClassifiedError)
  /-- quota error after `maxRetries` retries were exhausted -/
  | quotaExhausted
  /-- overloaded/503 error after `maxRetries` retries were exhausted -/
  | overloadedExhausted
  /-- empty-response error after `maxRetries` retries were exhausted -/
  | emptyExhausted
  /-- unreachable fourth arm of the exhausted-retries if-chain -/
  | persistentFailure
  /-- `"403 Forbidden"`: authentication error, never retried -/
  | authForbidden
  /-- `"Requested entity was not found."`: re-thrown, never retried -/
  | notFoundEntity
  /-- any other unclassified error: wrapped and thrown, never retried -/
  | genericFailure (e : ClassifiedError)
  deriving Repr, DecidableEq

/-- Events emitted by one run of the retry loop: the attempts it makes
(numbered from 0) and the backoff waits it performs
(`await new Promise(res => setTimeout(res, currentDelay))`). -/
inductive RetryEv where
  | attempt (idx : Nat)
  | wait (delayMs : Nat)
  deriving Repr, DecidableEq

/-- Retryability test of the source:
`isModelOverloadedError || (isQuotaError && retryDelayMs === undefined) || isEmptyResponseError`. -/
def ClassifiedError.retryable (e : ClassifiedError) : Bool :=
  e.isModelOverloadedError || (e.isQuotaError && e.retryDelayMs.isNone) || e.isEmptyResponseError

/-- The branch taken when retries are exhausted for a retryable error:
`if (isQuotaError) ... else if (isModelOverloadedError) ... else if (isEmptyResponseError) ... else ...`. -/
def exhaustedError (e : ClassifiedError) : RetryError :=
  if e.isQuotaError then .quotaExhausted
  else if e.isModelOverloadedError then .overloadedExhausted
  else if e.isEmptyResponseError then .emptyExhausted
  else .persistentFailure

/-- The branch taken for a non-retryable error. -/
def nonRetryableError (e : ClassifiedError) : RetryError :=
  if e.isForbidden then .authForbidden
  else if e.isNotFoundKeyError then .notFoundEntity
  else .genericFailure e

/-- One run of the `while (true)` loop body of `callGeminiApiWithRetries`,
recursing on `retriesLeft`.  `attempts k` is the outcome of the
`k`-th invocation of the wrapped `apiCall` (`attemptIdx` counts invocations
already made).  `delay` is the mutable backoff variable (initially
`initialDelayMs`, doubled after a wait exactly when the error carried no
server-supplied delay).  Returns the overall result and the emitted
attempt/wait events in order. -/
def retryGo (attempts : Nat → CallOutcome α) :
    Nat → Nat → Nat → Except RetryError α × List RetryEv
  | retriesLeft, delay, attemptIdx =>
    match attempts attemptIdx with
    | .success v => (.ok v, [.attempt attemptIdx])
    | .failure e =>
      if e.isQuotaError && e.retryDelayMs.isSome then
        (.error (.quotaWithServerDelay e), [.attempt attemptIdx])
      else if e.retryable then
        match retriesLeft with
        | r + 1 =>
          let currentDelay := e.retryDelayMs.getD delay
          let newDelay := if e.retryDelayMs.isNone then delay * 2 else delay
          let rest := retryGo attempts r newDelay (attemptIdx + 1)
          (rest.1, .attempt attemptIdx :: .wait currentDelay :: rest.2)
        | 0 => (.error (exhaustedError e), [.attempt attemptIdx])
      else
        (.error (nonRetryableError e), [.attempt attemptIdx])

/-- Model of `callGeminiApiWithRetries(apiCall, serviceName, retryOptions)`
(the API-key presence check is outside the claims and assumed to pass):
`retriesLeft = maxRetries`, `delay = initialDelayMs`, then the loop. -/
def callGeminiApiWithRetries (attempts : Nat → CallOutcome α)
    (maxRetries initialDelayMs : Nat) : Except RetryError α × List RetryEv :=
  retryGo attempts maxRetries initialDelayMs 0

/-- Waits performed by a retry run, in order. -/
def retryWaits (evs : List RetryEv) : List Nat :=
  evs.filterMap fun ev => match ev with | .wait d => some d | _ => none

/-- Number of invocations of the wrapped operation in a retry run. -/
def retryCalls (evs : List RetryEv) : Nat :=
  (evs.filter fun ev => match ev with | .attempt _ => true | _ => false).length

/-! ## Batch dispatch model (components/AudioGenerator.tsx, `handleGenerateAudio`) -/

/-- Chunk indices of batch `b` of the dispatch loop
`for (let i = 0; i < textChunks.length; i += CONCURRENCY_LIMIT)` with
`batchEnd = Math.min(i + CONCURRENCY_LIMIT, textChunks.length)`:
the indices `j` with `b*C ≤ j < min (b*C + C) n`. -/
def batchRange (n C b : Nat) : List Nat := List.range' (b * C) (min C (n - b * C))

/-- Number of iterations of the dispatch loop. -/
def numBatches (n C : Nat) : Nat := (n + C - 1) / C

/-- Settlement of one batch.  Each settled chunk `j` runs
`orderedBuffers[j] = audioBuffer` on success and leaves `null` on failure
(`results j : Option α` is the per-chunk outcome after retries);
`completionOrder` is the order in which the batch's concurrent promises
settle, an arbitrary permutation of the batch's chunk indices. -/
def settleBatch (results : Nat → Option α) (completionOrder : List Nat)
    (slots : List (Option α)) : List (Option α) :=
  completionOrder.foldl (fun acc j => acc.set j (results j)) slots

/-- The dispatch loop over the list of remaining batch indices.
`cancelBefore b` is the value the shared cancellation flag
`stopGenerationRef.current` reads at the check before batch `b`
(`if (stopGenerationRef.current) break;` — the flag is only ever set,
never cleared, during a run, so the loop's two reads per iteration are
merged into the boundary read).  `errorFlag` is the value of the `error`
state variable captured by the callback's closure, consulted by the
post-batch `if (error || stopGenerationRef.current) break;`. -/
def dispatchLoop (results : Nat → Option α) (orders : Nat → List Nat)
    (cancelBefore : Nat → Bool) (errorFlag : Bool) :
    List Nat → List (Option α) → List (Option α)
  | [], slots => slots
  | b :: rest, slots =>
    if cancelBefore b then slots
    else
      let slots2 := settleBatch results (orders b) slots
      if errorFlag then slots2
      else dispatchLoop results orders cancelBefore errorFlag rest slots2

/-- The whole dispatch phase: `orderedBuffers` starts as
`new Array(textChunks.length).fill(null)` and the batches run in order. -/
def dispatchAll (n C : Nat) (results : Nat → Option α) (orders : Nat → List Nat)
    (cancelBefore : Nat → Bool) (errorFlag : Bool) : List (Option α) :=
  dispatchLoop results orders cancelBefore errorFlag
    (List.range (numBatches n C)) (List.replicate n none)

instance : DecidableEq (Except String AudioBuf) := fun a b =>
  match a, b with
  | .ok x, .ok y => decidable_of_iff (x = y) (by simp)
  | .error x, .error y => decidable_of_iff (x = y) (by simp)
  | .ok _, .error _ => isFalse (by simp)
  | .error _, .ok _ => isFalse (by simp)

/-- Outcome of the post-dispatch assembly step of `handleGenerateAudio`. -/
inductive SessionOutcome where
  /-- the combine/mix/export branch ran on the filtered buffers -/
  | assembled (combined : Except String AudioBuf)
  /-- `stopGenerationRef.current` was set: error "Geração de áudio interrompida." -/
  | interrupted
  /-- some chunk slot stayed unfilled: error "Alguns trechos do áudio falharam na geração. O áudio incompleto não foi gerado." -/
  | partialFailure
  /-- leftover arm (`validBuffers.length = n = 0`), unreachable because the
  caller returns earlier when `textChunks.length === 0` -/
  | silentNoop
  deriving Repr, DecidableEq

/-- Model of the assembly step (lines 346-382 of AudioGenerator.tsx):
`validBuffers = orderedBuffers.filter(b => b !== null)`;
the combine branch runs only under
`!stopGenerationRef.current && validBuffers.length > 0 && validBuffers.length === textChunks.length`. -/
def assembleStep (ctxSampleRate n : Nat) (stopped : Bool)
    (slots : List (Option AudioBuf)) : SessionOutcome :=
  let validBuffers := slots.filterMap id
  if !stopped && decide (0 < validBuffers.length) && validBuffers.length == n then
    .assembled (combineAudioBuffers ctxSampleRate validBuffers)
  else if stopped then .interrupted
  else if validBuffers.length != n then .partialFailure
  else .silentNoop

/-! ## Session event trace (cancellation, AudioGenerator.tsx + geminiService.ts) -/

/-- Events of one generation session, in program order: the cancellation
check before each batch (`if (stopGenerationRef.current) break;`) with the
flag value it read, and each chunk's remote-call attempts and backoff
waits (from `callGeminiApiWithRetries`, which reads no cancellation flag). -/
inductive SessEv where
  | check (batch : Nat) (flagValue : Bool)
  | attempt (chunk attemptIdx : Nat)
  | wait (chunk delayMs : Nat)
  deriving Repr, DecidableEq

/-- Retry events of chunk `j`, tagged with the chunk index.
`attempts j k` is the outcome of chunk `j`'s `k`-th remote call. -/
def chunkEvents (attempts : Nat → Nat → CallOutcome Unit)
    (maxRetries initialDelayMs j : Nat) : List SessEv :=
  (callGeminiApiWithRetries (attempts j) maxRetries initialDelayMs).2.map fun ev =>
    match ev with
    | .attempt k => .attempt j k
    | .wait d => .wait j d

/-- The dispatch loop as an event trace.  The shared mutable flag
`stopGenerationRef.current` is modelled by the time it becomes set:
`cancelAt` is an index into the global event sequence, and a read at
global position `pos` returns `cancelAt ≤ pos`.  The flag is read ONLY at
the batch-boundary checks — faithful to the source, whose retry loop has
no access to it.  Chunks of one batch run concurrently in the source;
their attempt/wait events are serialized here in chunk-index order, which
is one legal interleaving and does not affect which events occur.
Returns the trace and whether the loop observed the flag set. -/
def sessionTraceGo (n C maxRetries initialDelayMs : Nat)
    (attempts : Nat → Nat → CallOutcome Unit) (cancelAt : Nat) :
    List Nat → Nat → List SessEv × Bool
  | [], _pos => ([], false)
  | b :: rest, pos =>
    let flag := decide (cancelAt ≤ pos)
    if flag then ([.check b true], true)
    else
      let evs := (batchRange n C b).flatMap
        (chunkEvents attempts maxRetries initialDelayMs)
      let next := sessionTraceGo n C maxRetries initialDelayMs attempts cancelAt
        rest (pos + 1 + evs.length)
      (.check b false :: evs ++ next.1, next.2)

/-- Event trace of a whole generation session's dispatch phase. -/
def sessionTrace (n C maxRetries initialDelayMs : Nat)
    (attempts : Nat → Nat → CallOutcome Unit) (cancelAt : Nat) :
    List SessEv × Bool :=
  sessionTraceGo n C maxRetries initialDelayMs attempts cancelAt
    (List.range (numBatches n C)) 0

/-! ## Text segmentation model (AudioGenerator.tsx lines 253-294) -/

/-- JavaScript `\s` (on the code points the pipeline handles). -/
def isSpaceChar (c : Char) : Bool :=
  c == ' ' || c == '\t' || c == '\n' || c == '\r' || c == '\x0b' || c == '\x0c'

/-- JavaScript `\w`: `[A-Za-z0-9_]`. -/
def isWordChar (c : Char) : Bool := c.isAlpha || c.isDigit || c == '_'

/-- The lookahead character class of the sentence regex:
`[A-ZÁÉÍÓÚÀÈÌÒÙÃÕÂÊÎÔÛÜÇ]`. -/
def isUpperTrigger (c : Char) : Bool :=
  c.isUpper || "ÁÉÍÓÚÀÈÌÒÙÃÕÂÊÎÔÛÜÇ".toList.contains c

/-- The `[.!?]` class of the sentence regex. -/
def isSentEnd (c : Char) : Bool := c == '.' || c == '!' || c == '?'

/-- Length of the maximal whitespace run of `s` starting at index `p`. -/
def wsRunLen (s : List Char) (p : Nat) : Nat :=
  ((s.drop p).takeWhile isSpaceChar).length

/-- JavaScript `String.prototype.trim`. -/
def trimChars (s : List Char) : List Char :=
  (((s.dropWhile isSpaceChar).reverse).dropWhile isSpaceChar).reverse

/-- Match of the sentence-boundary regex
`/(?<!\w\.\w.)(?<![A-Z][a-z]\.)(?<=[.!?])\s+(?=[A-ZÁÉÍÓÚÀÈÌÒÙÃÕÂÊÎÔÛÜÇ])/`
at index `p` of `s`: `some len` when a separator of length `len` (the
maximal whitespace run — the greedy `\s+` can only satisfy the lookahead
at the end of the run, since a whitespace character is never in the
uppercase class) begins at `p`.  The lookbehinds inspect the characters
before `p` and fail when the window extends past the start of the string;
the final `.` of `\w\.\w.` always matches the `[.!?]` character at `p-1`. -/
def sentenceBreakLen (s : List Char) (p : Nat) : Option Nat :=
  if p = 0 then none
  else if ¬ isSentEnd (s.getD (p - 1) ' ') then none
  else if 4 ≤ p ∧ isWordChar (s.getD (p - 4) ' ') ∧ s.getD (p - 3) ' ' = '.' ∧
      isWordChar (s.getD (p - 2) ' ') then none
  else if 3 ≤ p ∧ (s.getD (p - 3) ' ').isUpper ∧ (s.getD (p - 2) ' ').isLower ∧
      s.getD (p - 1) ' ' = '.' then none
  else
    let run := wsRunLen s p
    if 0 < run ∧ p + run < s.length ∧ isUpperTrigger (s.getD (p + run) ' ') then
      some run
    else none

/-- Index of the last occurrence of `c` in a character list, if any. -/
def lastIdxOf (c : Char) : List Char → Option Nat
  | [] => none
  | x :: xs =>
    match lastIdxOf c xs with
    | some j => some (j + 1)
    | none => if x = c then some 0 else none

/-- Match of the paragraph-boundary regex `/\n\s*\n/` at index `p` of `s`:
a `'\n'`, then the greedy `\s*` backtracks until the following character
is a `'\n'`, i.e. it stops at the last `'\n'` inside the maximal
whitespace run that follows. -/
def paragraphBreakLen (s : List Char) (p : Nat) : Option Nat :=
  if s.getD p ' ' = '\n' then
    let r := (s.drop (p + 1)).takeWhile isSpaceChar
    match lastIdxOf '\n' r with
    | some j => some (j + 2)
    | none => none
  else none

/-- First match of the separator regex at an index `≥ i`, with its length
(the scan of `String.prototype.split`). -/
def findBreakFrom (brk : List Char → Nat → Option Nat) (s : List Char) (i : Nat) :
    Option (Nat × Nat) :=
  (List.range' i (s.length - i)).findSome? fun p => (brk s p).map fun len => (p, len)

/-- Fuel-driven scan of `String.prototype.split(regex)`: pieces are the
maximal substrings between consecutive separator matches.  `s.length + 1`
fuel suffices because every separator has positive length. -/
def scanSplitGo (brk : List Char → Nat → Option Nat) (s : List Char) :
    Nat → Nat → List (List Char)
  | 0, i => [s.drop i]
  | fuel + 1, i =>
    match findBreakFrom brk s i with
    | none => [s.drop i]
    | some (p, len) => ((s.drop i).take (p - i)) :: scanSplitGo brk s fuel (p + len)

/-- `s.split(regex)` for a separator regex modelled by `brk`. -/
def scanSplit (brk : List Char → Nat → Option Nat) (s : List Char) :
    List (List Char) :=
  scanSplitGo brk s (s.length + 1) 0

/-- `text.split(/\n\s*\n/)` of the source. -/
def splitParagraphs (text : List Char) : List (List Char) :=
  scanSplit paragraphBreakLen text

/-- `paragraph.split(sentenceRegex)` of the source. -/
def splitSentences (paragraph : List Char) : List (List Char) :=
  scanSplit sentenceBreakLen paragraph

/-- The greedy sentence-packing loop over one paragraph's sentences
(`chunks` is the `textChunks` accumulator, `currentChunk` the in-progress
chunk; at paragraph end a non-empty `currentChunk` is pushed). -/
def packParagraph (maxChars : Nat) (chunks : List (List Char))
    (currentChunk : List Char) : List (List Char) → List (List Char)
  | [] => if currentChunk.isEmpty then chunks else chunks ++ [currentChunk]
  | sentence :: rest =>
    if (trimChars sentence).isEmpty then
      packParagraph maxChars chunks currentChunk rest
    else if (if currentChunk.isEmpty then sentence.length
             else currentChunk.length + sentence.length + 1) ≤ maxChars then
      packParagraph maxChars chunks
        (currentChunk ++ (if currentChunk.isEmpty then [] else [' ']) ++
          trimChars sentence) rest
    else
      packParagraph maxChars
        (if currentChunk.isEmpty then chunks else chunks ++ [currentChunk])
        (trimChars sentence) rest

/-- The chunk-size cap `MAX_CHARS_PER_AUDIO_CHUNK` of AudioGenerator.tsx. -/
def MAX_CHARS_PER_AUDIO_CHUNK : Nat := 35000

/-- The whole segmentation of `handleGenerateAudio`: paragraph split,
per-paragraph sentence split and greedy packing (paragraphs with empty
trim are skipped), then the fallback pushing the whole trimmed text as a
single chunk when no chunk was produced but the trimmed text is
non-empty. -/
def segmentText (maxChars : Nat) (text : List Char) : List (List Char) :=
  let chunks := (splitParagraphs text).foldl
    (fun acc paragraph =>
      if (trimChars paragraph).isEmpty then acc
      else packParagraph maxChars acc [] (splitSentences paragraph)) []
  if chunks.isEmpty && !(trimChars text).isEmpty then [trimChars text] else chunks

/-! ## Concrete data used by witnesses and counterexamples -/

/-- A pure 503/overloaded classified error with no server-supplied delay. -/
def overloadedNoDelay : ClassifiedError := ⟨false, true, false, false, false, none⟩

/-- A 503/overloaded classified error carrying a server-supplied delay. -/
def overloadedWithDelay (sd : Nat) : ClassifiedError :=
  ⟨false, true, false, false, false, some sd⟩

/-- Operation failing twice with a retryable overload, then succeeding. -/
def c3AttemptsA : Nat → CallOutcome Unit :=
  fun k => if k < 2 then .failure overloadedNoDelay else .success ()

/-- Operation failing with a retryable overload on every call. -/
def c3AttemptsB : Nat → CallOutcome Unit := fun _ => .failure overloadedNoDelay

/-- Operation whose first failure carries a server-supplied delay of
500 ms, whose second failure carries none, and which then succeeds. -/
def c3AttemptsC : Nat → CallOutcome Unit := fun k =>
  if k = 0 then .failure (overloadedWithDelay 500)
  else if k = 1 then .failure overloadedNoDelay
  else .success ()

/-- Per-chunk dispatch results used by the dispatch witnesses. -/
def c1Results : Nat → Option Nat := fun j => some (j * 10)

/-- An out-of-order completion schedule: batch 0's chunks settle in
reversed order. -/
def c1Orders : Nat → List Nat := fun b => if b = 0 then [1, 0] else [2]

/-- Dispatch results where chunk 1 of 2 fails after its retries. -/
def c2Results : Nat → Option AudioBuf :=
  fun j => if j = 1 then none else some ⟨24000, [[0]]⟩

/-- In-order completion schedule for two chunks at concurrency limit 1. -/
def c2Orders : Nat → List Nat := fun b => batchRange 2 1 b

/-- Per-chunk remote behaviour whose first call fails with a retryable
overload and whose second call succeeds, for every chunk. -/
def c9Attempts : Nat → Nat → CallOutcome Unit :=
  fun _ k => if k = 0 then .failure overloadedNoDelay else .success ()

/-! ## Helper lemmas -/

theorem clampSample_of_mem (x : ℚ) (h1 : -1 ≤ x) (h2 : x ≤ 1) : clampSample x = x := by
  unfold clampSample; rw [min_eq_right h2, max_eq_right h1]

theorem clampSample_of_one_le (x : ℚ) (h : 1 ≤ x) : clampSample x = 1 := by
  unfold clampSample; rw [min_eq_left h]; norm_num

theorem clampSample_of_le_neg_one (x : ℚ) (h : x ≤ -1) : clampSample x = -1 := by
  unfold clampSample
  rw [min_eq_right (le_trans h (by norm_num)), max_eq_left h]

theorem clampSample_mem (x : ℚ) : -1 ≤ clampSample x ∧ clampSample x ≤ 1 := by
  constructor
  · exact le_max_left _ _
  · unfold clampSample
    exact max_le (by norm_num) (min_le_left _ _)

theorem getD_map_range {α : Type} (n : Nat) (f : Nat → α) (c : Nat) (d : α)
    (hc : c < n) : ((List.range n).map f).getD c d = f c := by
  rw [List.getD_eq_getElem?_getD, List.getElem?_map, List.getElem?_range hc]
  rfl

/-! ## Claim C10 -/

/-- C10: called with an empty list of buffers, `combineAudioBuffers` does
not raise an error: it returns a newly created silent buffer with 1
channel and 1 frame at the context's sample rate (all samples 0), so an
empty input is indistinguishable from one frame of silence by the error
channel. -/
theorem C10_empty_input_silent_buffer (ctxRate : Nat) :
    combineAudioBuffers ctxRate [] = .ok ⟨ctxRate, [[0]]⟩ ∧
    ∃ b, combineAudioBuffers ctxRate [] = .ok b ∧
      b.numberOfChannels = 1 ∧ b.length = 1 ∧ b.sampleRate = ctxRate ∧
      b.sample 0 0 = 0 :=
  ⟨rfl, ⟨ctxRate, [[0]]⟩, rfl, rfl, rfl, rfl, rfl⟩

/-! ## Claim C6 -/

/-- C6 counterexample: the claim states that the WAV path and the MP3
path re-encode identically with the asymmetric scaling
`s < 0 ? s*32768 : s*32767` (so that -1.0 encodes to -32768 in both).
At the concrete input sample -1.0 the two paths disagree: the WAV
conversion yields -32768 but the MP3 conversion (which multiplies every
clamped sample by 0x7FFF) yields -32767. -/
theorem C6_counterexample :
    floatTo16BitPCM (-1) = -32768 ∧ mp3FloatToInt16 (-1) = -32767 ∧
    mp3FloatToInt16 (-1) ≠ floatTo16BitPCM (-1) := by
  have hc : clampSample (-1 : ℚ) = -1 := clampSample_of_mem _ le_rfl (by norm_num)
  have h8 : ⌈(-1 * 32768 : ℚ)⌉ = -32768 := by rw [Int.ceil_eq_iff]; norm_num
  have h7 : ⌈(-1 * 32767 : ℚ)⌉ = -32767 := by rw [Int.ceil_eq_iff]; norm_num
  have hwav : floatTo16BitPCM (-1) = -32768 := by
    simp only [floatTo16BitPCM, hc]
    rw [if_pos (by norm_num), truncateQ, if_neg (by norm_num), h8]
    decide
  have hmp3 : mp3FloatToInt16 (-1) = -32767 := by
    simp only [mp3FloatToInt16, hc]
    rw [truncateQ, if_neg (by norm_num), h7]
    decide
  refine ⟨hwav, hmp3, ?_⟩
  rw [hwav, hmp3]; decide

/-- C6 (amended): every export path clamps the sample to [-1, 1] and then
converts to int16, but the two paths do not share one formula: the WAV
path (`floatTo16BitPCM`) uses the asymmetric scaling
`s < 0 ? s*32768 : s*32767`, so 1.0 encodes to 32767, -1.0 to -32768 and
0.0 to 0, while the MP3 path multiplies every clamped sample by 32767
(symmetric scaling), so it maps 1.0 to 32767 and 0.0 to 0 but -1.0 to
-32767; the two conversions agree exactly on the samples whose clamped
value is nonnegative. -/
theorem C6_export_encodings :
    (floatTo16BitPCM 1 = 32767 ∧ floatTo16BitPCM (-1) = -32768 ∧
      floatTo16BitPCM 0 = 0) ∧
    (mp3FloatToInt16 1 = 32767 ∧ mp3FloatToInt16 (-1) = -32767 ∧
      mp3FloatToInt16 0 = 0) ∧
    (∀ s : ℚ, 0 ≤ clampSample s → mp3FloatToInt16 s = floatTo16BitPCM s) := by
  have hcn : clampSample (-1 : ℚ) = -1 := clampSample_of_mem _ le_rfl (by norm_num)
  have hc1 : clampSample (1 : ℚ) = 1 := clampSample_of_mem _ (by norm_num) le_rfl
  have hc0 : clampSample (0 : ℚ) = 0 := clampSample_of_mem _ (by norm_num) (by norm_num)
  have hfl : ⌊(1 * 32767 : ℚ)⌋ = 32767 := by rw [Int.floor_eq_iff]; norm_num
  have h8 : ⌈(-1 * 32768 : ℚ)⌉ = -32768 := by rw [Int.ceil_eq_iff]; norm_num
  have h7 : ⌈(-1 * 32767 : ℚ)⌉ = -32767 := by rw [Int.ceil_eq_iff]; norm_num
  refine ⟨⟨?_, ?_, ?_⟩, ⟨?_, ?_, ?_⟩, ?_⟩
  · simp only [floatTo16BitPCM, hc1]
    rw [if_neg (by norm_num), truncateQ, if_pos (by norm_num), hfl]
    decide
  · simp only [floatTo16BitPCM, hcn]
    rw [if_pos (by norm_num), truncateQ, if_neg (by norm_num), h8]
    decide
  · simp only [floatTo16BitPCM, hc0]
    rw [if_neg (by norm_num), truncateQ, if_pos (by norm_num)]
    norm_num [toInt16]
  · simp only [mp3FloatToInt16, hc1]
    rw [truncateQ, if_pos (by norm_num), hfl]
    decide
  · simp only [mp3FloatToInt16, hcn]
    rw [truncateQ, if_neg (by norm_num), h7]
    decide
  · simp only [mp3FloatToInt16, hc0]
    rw [truncateQ, if_pos (by norm_num)]
    norm_num [toInt16]
  · intro s h
    simp [floatTo16BitPCM, mp3FloatToInt16, not_lt.mpr h]

/-- C6 witness: the agreement part of the amended claim applied at the
concrete sample 1/2. -/
theorem C6_witness :
    0 ≤ clampSample (1/2 : ℚ) ∧
    mp3FloatToInt16 (1/2 : ℚ) = floatTo16BitPCM (1/2 : ℚ) := by
  have h : clampSample (1/2 : ℚ) = 1/2 :=
    clampSample_of_mem _ (by norm_num) (by norm_num)
  exact ⟨by rw [h]; norm_num, C6_export_encodings.2.2 _ (by rw [h]; norm_num)⟩

/-! ## Claim C4 -/

/-- C4 counterexample: the claim states that EVERY buffer-combining
operation (concatenate and mix) fails with a hard error on buffers that
do not share the same sampleRate and channelCount.  At the concrete
input of a 24000 Hz speech buffer and a 48000 Hz music buffer (both mono,
one frame), `mixAudioBuffers` raises no error at all: it returns a mixed
buffer carrying the speech buffer's sample rate. -/
theorem C4_counterexample :
    (AudioBuf.mk 24000 [[0]]).sampleRate ≠ (AudioBuf.mk 48000 [[0]]).sampleRate ∧
    mixAudioBuffers ⟨24000, [[0]]⟩ ⟨48000, [[0]]⟩ 1 1 = .ok ⟨24000, [[0]]⟩ := by
  constructor
  · decide
  · simp [mixAudioBuffers, AudioBuf.numberOfChannels, AudioBuf.length,
      List.range_succ, clampSample]

/-- C4 (amended): only the concatenation operation validates formats:
`combineAudioBuffers` fails with a hard error whenever some input buffer
differs from the first in sampleRate or channelCount, but
`mixAudioBuffers` performs no such validation — whenever the speech
buffer has at least one channel, the output length is positive and the
music buffer has at least as many channels as the speech buffer, it
combines the two buffers without error even if their sample rates (or
channel counts) differ, taking the speech buffer's sample rate for the
output. -/
theorem C4_only_concatenate_validates_formats :
    (∀ (ctxRate : Nat) (b0 : AudioBuf) (rest : List AudioBuf) (b : AudioBuf),
      b ∈ b0 :: rest →
      b.sampleRate ≠ b0.sampleRate ∨ b.numberOfChannels ≠ b0.numberOfChannels →
      combineAudioBuffers ctxRate (b0 :: rest) =
        .error "All audio buffers must have the same sample rate and number of channels.") ∧
    (∀ (speechBuffer musicBuffer : AudioBuf) (sv mv : ℚ),
      speechBuffer.numberOfChannels ≠ 0 →
      max speechBuffer.length musicBuffer.length ≠ 0 →
      speechBuffer.numberOfChannels ≤ musicBuffer.numberOfChannels →
      ∃ out, mixAudioBuffers speechBuffer musicBuffer sv mv = Except.ok out ∧
        out.sampleRate = speechBuffer.sampleRate) := by
  constructor
  · intro ctxRate b0 rest b hmem hne
    have hall : ((b0 :: rest).all fun x =>
        x.sampleRate == b0.sampleRate && x.numberOfChannels == b0.numberOfChannels) = false := by
      refine List.all_eq_false.mpr ⟨b, hmem, ?_⟩
      simp only [Bool.and_eq_true, beq_iff_eq, not_and_or]
      rcases hne with h | h
      · exact Or.inl h
      · exact Or.inr h
    simp [combineAudioBuffers, hall]
  · intro speechBuffer musicBuffer sv mv h1 h2 h3
    unfold mixAudioBuffers
    rw [if_neg (by push_neg; exact ⟨h1, h2⟩), if_neg (not_lt.mpr h3)]
    exact ⟨_, rfl, rfl⟩

/-- C4 witness: the amended claim applied at concrete inputs — a
mismatched pair rejected by `combineAudioBuffers`, and the same
mismatched pair accepted by `mixAudioBuffers`. -/
theorem C4_witness :
    combineAudioBuffers 24000 [⟨24000, [[0]]⟩, ⟨48000, [[0]]⟩] =
      .error "All audio buffers must have the same sample rate and number of channels." ∧
    ∃ out, mixAudioBuffers ⟨24000, [[0]]⟩ ⟨48000, [[0]]⟩ 1 1 = Except.ok out ∧
      out.sampleRate = (AudioBuf.mk 24000 [[0]]).sampleRate :=
  ⟨C4_only_concatenate_validates_formats.1 24000 ⟨24000, [[0]]⟩ [⟨48000, [[0]]⟩]
      ⟨48000, [[0]]⟩ (by simp) (Or.inl (by decide)),
   C4_only_concatenate_validates_formats.2 ⟨24000, [[0]]⟩ ⟨48000, [[0]]⟩ 1 1
      (by decide) (by decide) (by decide)⟩

/-! ## Claim C7 -/

theorem AudioBuf.chan_length (b : AudioBuf) (hwf : b.WF) (c : Nat)
    (hc : c < b.numberOfChannels) : (b.chans.getD c []).length = b.length := by
  have hmem : b.chans.getD c [] ∈ b.chans := by
    rw [List.getD_eq_getElem?_getD, List.getElem?_eq_getElem hc]
    exact List.getElem_mem hc
  exact hwf _ hmem

/-- C7: for every non-empty sequence of well-formed audio buffers sharing
the first buffer's sampleRate and channelCount (all with at least one
channel and one frame, as real `AudioBuffer`s have), `combineAudioBuffers`
succeeds and returns a buffer whose length is the sum of the input
lengths and whose per-channel sample data is the in-order concatenation
of the inputs' channel data, with no gain change. -/
theorem C7_concatenate_lengths_and_order (ctxRate : Nat) (b0 : AudioBuf)
    (rest : List AudioBuf)
    (hwf : ∀ b ∈ b0 :: rest, b.WF)
    (hfmt : ∀ b ∈ b0 :: rest,
      b.sampleRate = b0.sampleRate ∧ b.numberOfChannels = b0.numberOfChannels)
    (hch : 0 < b0.numberOfChannels)
    (hlen : ∀ b ∈ b0 :: rest, 0 < b.length) :
    ∃ out, combineAudioBuffers ctxRate (b0 :: rest) = .ok out ∧
      out.length = ((b0 :: rest).map AudioBuf.length).sum ∧
      out.numberOfChannels = b0.numberOfChannels ∧
      out.sampleRate = b0.sampleRate ∧
      (∀ c, c < b0.numberOfChannels →
        out.chans.getD c [] =
          ((b0 :: rest).map fun b => b.chans.getD c []).flatten) ∧
      out.WF := by
  have hall : ((b0 :: rest).all fun x =>
      x.sampleRate == b0.sampleRate && x.numberOfChannels == b0.numberOfChannels) = true := by
    refine List.all_eq_true.mpr fun x hx => ?_
    rcases hfmt x hx with ⟨h1, h2⟩
    simp [h1, h2]
  have htot : ((b0 :: rest).map AudioBuf.length).sum ≠ 0 := by
    have : 0 < b0.length := hlen b0 (by simp)
    simp only [List.map_cons, List.sum_cons]
    omega
  have hflatlen : ∀ c, c < b0.numberOfChannels →
      (((b0 :: rest).map fun b => b.chans.getD c []).flatten).length =
        ((b0 :: rest).map AudioBuf.length).sum := by
    intro c hc
    rw [List.length_flatten, List.map_map]
    refine congrArg List.sum (List.map_congr_left fun b hb => ?_)
    have hbch : c < b.numberOfChannels := (hfmt b hb).2 ▸ hc
    exact AudioBuf.chan_length b (hwf b hb) c hbch
  refine ⟨⟨b0.sampleRate, (List.range b0.numberOfChannels).map fun c =>
      ((b0 :: rest).map fun b => b.chans.getD c []).flatten⟩, ?_, ?_, ?_, ?_, ?_, ?_⟩
  · simp only [combineAudioBuffers]
    rw [if_pos hall, if_neg (by push_neg; exact ⟨by omega, htot⟩)]
  · show AudioBuf.length _ = _
    unfold AudioBuf.length
    rw [getD_map_range _ _ 0 [] hch]
    exact hflatlen 0 hch
  · show AudioBuf.numberOfChannels _ = _
    unfold AudioBuf.numberOfChannels
    simp
  · rfl
  · intro c hc
    exact getD_map_range _ _ c [] hc
  · intro ch hch2
    rcases List.mem_map.mp hch2 with ⟨c, hcr, rfl⟩
    have hc : c < b0.numberOfChannels := List.mem_range.mp hcr
    rw [hflatlen c hc]
    show _ = AudioBuf.length _
    unfold AudioBuf.length
    rw [getD_map_range _ _ 0 [] hch]
    exact (hflatlen 0 hch).symm

/-- C7 witness: concatenation of a two-frame buffer and a one-frame
buffer (same format) yields a three-frame buffer whose channel is the
in-order concatenation, so sample 1 is the first buffer's last sample and
sample 2 is the second buffer's first sample. -/
theorem C7_witness :
    ∃ out, combineAudioBuffers 24000 [⟨24000, [[2, 3]]⟩, ⟨24000, [[5]]⟩] = .ok out ∧
      out.length = 3 ∧ out.chans.getD 0 [] = [2, 3, 5] ∧
      out.sample 0 1 = 3 ∧ out.sample 0 2 = 5 := by
  obtain ⟨out, hok, hlen, _, _, hchan, _⟩ :=
    C7_concatenate_lengths_and_order 24000 ⟨24000, [[2, 3]]⟩ [⟨24000, [[5]]⟩]
      (by intro b hb; fin_cases hb <;> decide)
      (by intro b hb; fin_cases hb <;> exact ⟨rfl, rfl⟩)
      (by decide)
      (by intro b hb; fin_cases hb <;> decide)
  refine ⟨out, hok, by simpa using hlen, ?_, ?_, ?_⟩
  · rw [hchan 0 (by decide)]; rfl
  · unfold AudioBuf.sample; rw [hchan 0 (by decide)]; rfl
  · unfold AudioBuf.sample; rw [hchan 0 (by decide)]; rfl

/-! ## Claim C5 -/

/-- C5: for well-formed speech and music buffers of equal sampleRate and
channelCount (speech with at least one channel, music non-empty),
`mixAudioBuffers` succeeds with a buffer of length
`max(speech.length, music.length)` whose every sample at index `i` is
`clamp(-1, 1, speech[i]*speechGain + music[i % music.length]*musicGain)`,
where the speech term is 0 for `i ≥ speech.length` (speech is not looped,
music loops by modulo indexing); sums at or beyond ±1 clamp to exactly
±1. -/
theorem C5_mix_length_loop_clamp (speechBuffer musicBuffer : AudioBuf) (sv mv : ℚ)
    (hwfS : speechBuffer.WF) (hwfM : musicBuffer.WF)
    (_hrate : speechBuffer.sampleRate = musicBuffer.sampleRate)
    (hch : speechBuffer.numberOfChannels = musicBuffer.numberOfChannels)
    (hch0 : 0 < speechBuffer.numberOfChannels)
    (hm0 : 0 < musicBuffer.length) :
    ∃ out, mixAudioBuffers speechBuffer musicBuffer sv mv = Except.ok out ∧
      out.length = max speechBuffer.length musicBuffer.length ∧
      out.numberOfChannels = speechBuffer.numberOfChannels ∧
      (∀ c i, c < speechBuffer.numberOfChannels →
        i < max speechBuffer.length musicBuffer.length →
        out.sample c i = clampSample
          ((if i < speechBuffer.length then speechBuffer.sample c i * sv else 0) +
            musicBuffer.sample c (i % musicBuffer.length) * mv)) ∧
      (∀ x : ℚ, 1 ≤ x → clampSample x = 1) ∧
      (∀ x : ℚ, x ≤ -1 → clampSample x = -1) := by
  have hL : 0 < max speechBuffer.length musicBuffer.length :=
    lt_of_lt_of_le hm0 (le_max_right _ _)
  refine ⟨⟨speechBuffer.sampleRate,
      (List.range speechBuffer.numberOfChannels).map fun channel =>
        (List.range (max speechBuffer.length musicBuffer.length)).map fun i =>
          clampSample
            ((if i < (speechBuffer.chans.getD channel []).length then
                (speechBuffer.chans.getD channel []).getD i 0 * sv
              else 0) +
             (if 0 < musicBuffer.length then
                (musicBuffer.chans.getD channel []).getD
                  (i % (musicBuffer.chans.getD channel []).length) 0 * mv
              else 0))⟩, ?_, ?_, ?_, ?_,
    fun x hx => clampSample_of_one_le x hx,
    fun x hx => clampSample_of_le_neg_one x hx⟩
  · unfold mixAudioBuffers
    rw [if_neg (by push_neg; exact ⟨by omega, by omega⟩),
      if_neg (not_lt.mpr (le_of_eq hch))]
  · show AudioBuf.length _ = _
    unfold AudioBuf.length
    rw [getD_map_range _ _ 0 [] hch0]
    simp
  · show AudioBuf.numberOfChannels _ = _
    unfold AudioBuf.numberOfChannels
    simp
  · intro c i hc hi
    unfold AudioBuf.sample
    rw [getD_map_range _ _ c [] hc, getD_map_range _ _ i 0 hi,
      AudioBuf.chan_length speechBuffer hwfS c hc,
      AudioBuf.chan_length musicBuffer hwfM c (hch ▸ hc), if_pos hm0]

/-- C5 witness: the mix theorem applied to a two-frame speech buffer and
a one-frame music buffer of the same format. -/
theorem C5_witness :
    ∃ out, mixAudioBuffers ⟨24000, [[1, 0]]⟩ ⟨24000, [[1]]⟩ 1 1 = Except.ok out ∧
      out.length = max (AudioBuf.mk 24000 [[1, 0]]).length (AudioBuf.mk 24000 [[1]]).length ∧
      out.numberOfChannels = (AudioBuf.mk 24000 [[1, 0]]).numberOfChannels ∧
      (∀ c i, c < (AudioBuf.mk 24000 [[1, 0]]).numberOfChannels →
        i < max (AudioBuf.mk 24000 [[1, 0]]).length (AudioBuf.mk 24000 [[1]]).length →
        out.sample c i = clampSample
          ((if i < (AudioBuf.mk 24000 [[1, 0]]).length then
              (AudioBuf.mk 24000 [[1, 0]]).sample c i * 1 else 0) +
            (AudioBuf.mk 24000 [[1]]).sample c
              (i % (AudioBuf.mk 24000 [[1]]).length) * 1)) ∧
      (∀ x : ℚ, 1 ≤ x → clampSample x = 1) ∧
      (∀ x : ℚ, x ≤ -1 → clampSample x = -1) :=
  C5_mix_length_loop_clamp ⟨24000, [[1, 0]]⟩ ⟨24000, [[1]]⟩ 1 1
    (by decide) (by decide) rfl rfl (by decide) (by decide)

/-! ## Claim C3 -/

theorem retryGo_success_step {α : Type} (attempts : Nat → CallOutcome α) (v : α)
    (r delay a : Nat) (h : attempts a = .success v) :
    retryGo attempts r delay a = (.ok v, [.attempt a]) := by
  rw [retryGo, h]

theorem retryGo_failure_step {α : Type} (attempts : Nat → CallOutcome α)
    (r delay a : Nat) (e : ClassifiedError)
    (h : attempts a = .failure e)
    (hq : (e.isQuotaError && e.retryDelayMs.isSome) = false)
    (hre : e.retryable = true) :
    retryGo attempts (r + 1) delay a =
      ((retryGo attempts r (if e.retryDelayMs.isNone then delay * 2 else delay) (a + 1)).1,
        .attempt a :: .wait (e.retryDelayMs.getD delay) ::
          (retryGo attempts r (if e.retryDelayMs.isNone then delay * 2 else delay) (a + 1)).2) := by
  rw [retryGo, h]
  simp [hq, hre]

theorem retryGo_exhaust_step {α : Type} (attempts : Nat → CallOutcome α)
    (delay a : Nat) (e : ClassifiedError)
    (h : attempts a = .failure e)
    (hq : (e.isQuotaError && e.retryDelayMs.isSome) = false)
    (hre : e.retryable = true) :
    retryGo attempts 0 delay a = (.error (exhaustedError e), [.attempt a]) := by
  rw [retryGo, h]
  simp [hq, hre]

theorem retryWaits_pair (a d : Nat) (l : List RetryEv) :
    retryWaits (.attempt a :: .wait d :: l) = d :: retryWaits l := by
  simp [retryWaits]

theorem retryCalls_pair (a d : Nat) (l : List RetryEv) :
    retryCalls (.attempt a :: .wait d :: l) = retryCalls l + 1 := by
  simp [retryCalls, List.filter_cons]

theorem retryWaits_single (a : Nat) : retryWaits [.attempt a] = [] := by
  simp [retryWaits]

theorem retryCalls_single (a : Nat) : retryCalls [.attempt a] = 1 := by
  simp [retryCalls, List.filter_cons]

theorem retry_success_chain {α : Type} (attempts : Nat → CallOutcome α) (v : α) :
    ∀ (n m delay a : Nat),
    (∀ k, k < n → ∃ e, attempts (a + k) = .failure e ∧
      e.retryable = true ∧ e.retryDelayMs = none) →
    attempts (a + n) = .success v →
    (retryGo attempts (n + m) delay a).1 = .ok v ∧
    retryWaits (retryGo attempts (n + m) delay a).2 =
      (List.range n).map (fun k => delay * 2 ^ k) ∧
    retryCalls (retryGo attempts (n + m) delay a).2 = n + 1 := by
  intro n
  induction n with
  | zero =>
    intro m delay a _hf hs
    rw [Nat.add_zero] at hs
    rw [Nat.zero_add, retryGo_success_step attempts v m delay a hs]
    simp [retryWaits, retryCalls]
  | succ n ih =>
    intro m delay a hf hs
    obtain ⟨e0, h0, hre0, hnd0⟩ := hf 0 (Nat.succ_pos n)
    rw [Nat.add_zero] at h0
    have hq0 : (e0.isQuotaError && e0.retryDelayMs.isSome) = false := by simp [hnd0]
    have hstep := retryGo_failure_step attempts (n + m) delay a e0 h0 hq0 hre0
    rw [hnd0] at hstep
    simp only [Option.isNone_none, if_pos, Option.getD_none] at hstep
    have ih2 := ih m (delay * 2) (a + 1)
      (fun k hk => by
        obtain ⟨e, he, hr, hn⟩ := hf (k + 1) (by omega)
        exact ⟨e, by rw [← he]; ring_nf, hr, hn⟩)
      (by rw [← hs]; ring_nf)
    rw [show n + 1 + m = n + m + 1 from by omega, hstep]
    refine ⟨ih2.1, ?_, ?_⟩
    · rw [retryWaits_pair, ih2.2.1, List.range_succ_eq_map, List.map_cons, List.map_map]
      refine congrArg₂ _ (by ring) (List.map_congr_left fun k _ => ?_)
      simp only [Function.comp]
      rw [Nat.succ_eq_add_one, pow_succ]
      ring
    · rw [retryCalls_pair, ih2.2.2]

theorem retry_exhaust_chain {α : Type} (attempts : Nat → CallOutcome α)
    (es : Nat → ClassifiedError)
    (hatt : ∀ k, attempts k = .failure (es k))
    (hre : ∀ k, (es k).retryable = true)
    (hnd : ∀ k, (es k).retryDelayMs = none) :
    ∀ (r delay a : Nat),
    (retryGo attempts r delay a).1 = .error (exhaustedError (es (a + r))) ∧
    retryWaits (retryGo attempts r delay a).2 =
      (List.range r).map (fun k => delay * 2 ^ k) ∧
    retryCalls (retryGo attempts r delay a).2 = r + 1 := by
  intro r
  induction r with
  | zero =>
    intro delay a
    have hq : ((es a).isQuotaError && (es a).retryDelayMs.isSome) = false := by
      simp [hnd a]
    rw [retryGo_exhaust_step attempts delay a (es a) (hatt a) hq (hre a)]
    simp [retryWaits_single, retryCalls_single]
  | succ r ih =>
    intro delay a
    have hq : ((es a).isQuotaError && (es a).retryDelayMs.isSome) = false := by
      simp [hnd a]
    have hstep := retryGo_failure_step attempts r delay a (es a) (hatt a) hq (hre a)
    rw [hnd a] at hstep
    simp only [Option.isNone_none, if_pos, Option.getD_none] at hstep
    rw [hstep]
    have ih2 := ih (delay * 2) (a + 1)
    refine ⟨?_, ?_, ?_⟩
    · rw [show a + (r + 1) = a + 1 + r from by omega]
      exact ih2.1
    · rw [retryWaits_pair, ih2.2.1, List.range_succ_eq_map, List.map_cons, List.map_map]
      refine congrArg₂ _ (by ring) (List.map_congr_left fun k _ => ?_)
      simp only [Function.comp]
      rw [Nat.succ_eq_add_one, pow_succ]
      ring
    · rw [retryCalls_pair, ih2.2.2]

theorem retry_server_delay {α : Type} (attempts : Nat → CallOutcome α) (v : α)
    (maxRetries d sd : Nat) (e0 e1 : ClassifiedError)
    (hm : 2 ≤ maxRetries)
    (h0 : attempts 0 = .failure e0) (hq0 : e0.isQuotaError = false)
    (hre0 : e0.retryable = true) (hsd : e0.retryDelayMs = some sd)
    (h1 : attempts 1 = .failure e1) (hre1 : e1.retryable = true)
    (hnd1 : e1.retryDelayMs = none)
    (h2 : attempts 2 = .success v) :
    (callGeminiApiWithRetries attempts maxRetries d).1 = .ok v ∧
    retryWaits (callGeminiApiWithRetries attempts maxRetries d).2 = [sd, d] := by
  obtain ⟨r, rfl⟩ : ∃ r, maxRetries = r + 2 := ⟨maxRetries - 2, by omega⟩
  unfold callGeminiApiWithRetries
  have hq0b : (e0.isQuotaError && e0.retryDelayMs.isSome) = false := by simp [hq0]
  have s0 := retryGo_failure_step attempts (r + 1) d 0 e0 h0 hq0b hre0
  rw [hsd] at s0
  simp only [Option.isNone_some, Bool.false_eq_true, if_false, Option.getD_some] at s0
  have hq1b : (e1.isQuotaError && e1.retryDelayMs.isSome) = false := by simp [hnd1]
  have s1 := retryGo_failure_step attempts r d 1 e1 h1 hq1b hre1
  rw [hnd1] at s1
  simp only [Option.isNone_none, if_pos, Option.getD_none] at s1
  have s2 := retryGo_success_step attempts v r (d * 2) 2 h2
  rw [show r + 2 = r + 1 + 1 from rfl, s0, s1, s2]
  exact ⟨rfl, by simp [retryWaits]⟩

/-- C3: the retry policy of `callGeminiApiWithRetries`.
(1) An operation whose first `n ≤ maxRetries` calls fail with retryable
errors carrying no server delay and whose next call succeeds ends in
success, after exactly `n` backoff waits of `initialDelayMs * 2^k`
(`k = 0..n-1` — the delay doubles each attempt starting at
`initialDelayMs`) and `n + 1` invocations.
(2) An operation failing on every call with retryable no-delay errors
makes exactly `maxRetries + 1` invocations (no further attempt after the
`maxRetries+1`-th consecutive failure), performs `maxRetries` waits, and
ends in the terminal kind-specific error `exhaustedError` of the last
failure (quota -> quotaExhausted, overloaded -> overloadedExhausted,
empty -> emptyExhausted).
(3) A retryable non-quota failure carrying a server-supplied delay `sd`
waits exactly `sd` (the server delay, used as-is) and does not double the
backoff variable: a following no-delay failure still waits the original
`initialDelayMs`. -/
theorem C3_retry_backoff_policy :
    (∀ (α : Type) (attempts : Nat → CallOutcome α) (v : α)
      (maxRetries initialDelayMs n : Nat),
      n ≤ maxRetries →
      (∀ k, k < n → ∃ e, attempts k = .failure e ∧
        e.retryable = true ∧ e.retryDelayMs = none) →
      attempts n = .success v →
      (callGeminiApiWithRetries attempts maxRetries initialDelayMs).1 = .ok v ∧
      retryWaits (callGeminiApiWithRetries attempts maxRetries initialDelayMs).2 =
        (List.range n).map (fun k => initialDelayMs * 2 ^ k) ∧
      retryCalls (callGeminiApiWithRetries attempts maxRetries initialDelayMs).2 = n + 1) ∧
    (∀ (α : Type) (attempts : Nat → CallOutcome α) (es : Nat → ClassifiedError)
      (maxRetries initialDelayMs : Nat),
      (∀ k, attempts k = .failure (es k)) →
      (∀ k, (es k).retryable = true) →
      (∀ k, (es k).retryDelayMs = none) →
      (callGeminiApiWithRetries attempts maxRetries initialDelayMs).1 =
        .error (exhaustedError (es maxRetries)) ∧
      retryCalls (callGeminiApiWithRetries attempts maxRetries initialDelayMs).2 =
        maxRetries + 1 ∧
      retryWaits (callGeminiApiWithRetries attempts maxRetries initialDelayMs).2 =
        (List.range maxRetries).map (fun k => initialDelayMs * 2 ^ k)) ∧
    (∀ (α : Type) (attempts : Nat → CallOutcome α) (v : α)
      (maxRetries d sd : Nat) (e0 e1 : ClassifiedError),
      2 ≤ maxRetries →
      attempts 0 = .failure e0 → e0.isQuotaError = false →
      e0.retryable = true → e0.retryDelayMs = some sd →
      attempts 1 = .failure e1 → e1.retryable = true → e1.retryDelayMs = none →
      attempts 2 = .success v →
      (callGeminiApiWithRetries attempts maxRetries d).1 = .ok v ∧
      retryWaits (callGeminiApiWithRetries attempts maxRetries d).2 = [sd, d]) := by
  refine ⟨?_, ?_, ?_⟩
  · intro α attempts v maxRetries initialDelayMs n hn hf hs
    have h := retry_success_chain attempts v n (maxRetries - n) initialDelayMs 0
      (fun k hk => by rw [Nat.zero_add]; exact hf k hk)
      (by rw [Nat.zero_add]; exact hs)
    rw [show n + (maxRetries - n) = maxRetries from by omega] at h
    exact h
  · intro α attempts es maxRetries initialDelayMs hatt hre hnd
    have h := retry_exhaust_chain attempts es hatt hre hnd maxRetries initialDelayMs 0
    rw [Nat.zero_add] at h
    exact ⟨h.1, h.2.2, h.2.1⟩
  · intro α attempts v maxRetries d sd e0 e1 hm h0 hq0 hre0 hsd h1 hre1 hnd1 h2
    exact retry_server_delay attempts v maxRetries d sd e0 e1 hm h0 hq0 hre0 hsd
      h1 hre1 hnd1 h2

/-- C3 witness: the policy applied to the spec's own scenarios with
`maxRetries = 3, initialDelayMs = 1000`: three overload failures then
success waits 1000+2000 before the third call succeeds on attempt
index 2 (scenario with n = 2); permanent overload makes 4 calls, waits
[1000, 2000, 4000] and ends in the terminal overloaded error; a
server-supplied 500 ms delay is used as-is and not doubled. -/
theorem C3_witness :
    ((callGeminiApiWithRetries c3AttemptsA 3 1000).1 = .ok () ∧
      retryWaits (callGeminiApiWithRetries c3AttemptsA 3 1000).2 = [1000, 2000] ∧
      retryCalls (callGeminiApiWithRetries c3AttemptsA 3 1000).2 = 3) ∧
    ((callGeminiApiWithRetries c3AttemptsB 3 1000).1 = .error .overloadedExhausted ∧
      retryCalls (callGeminiApiWithRetries c3AttemptsB 3 1000).2 = 4 ∧
      retryWaits (callGeminiApiWithRetries c3AttemptsB 3 1000).2 = [1000, 2000, 4000]) ∧
    ((callGeminiApiWithRetries c3AttemptsC 3 1000).1 = .ok () ∧
      retryWaits (callGeminiApiWithRetries c3AttemptsC 3 1000).2 = [500, 1000]) := by
  refine ⟨?_, ?_, ?_⟩
  · have h := C3_retry_backoff_policy.1 Unit c3AttemptsA () 3 1000 2 (by omega)
      (fun k hk => ⟨overloadedNoDelay, by simp [c3AttemptsA, hk], rfl, rfl⟩)
      (by simp [c3AttemptsA])
    exact ⟨h.1, h.2.1.trans (by rfl), h.2.2⟩
  · have h := C3_retry_backoff_policy.2.1 Unit c3AttemptsB (fun _ => overloadedNoDelay)
      3 1000 (fun _ => rfl) (fun _ => rfl) (fun _ => rfl)
    exact ⟨h.1, h.2.1, h.2.2.trans (by rfl)⟩
  · exact C3_retry_backoff_policy.2.2 Unit c3AttemptsC () 3 1000 500
      (overloadedWithDelay 500) overloadedNoDelay (by omega) rfl rfl rfl rfl rfl rfl rfl rfl

/-! ## Claim C1 -/

theorem settleBatch_length {α : Type} (results : Nat → Option α) :
    ∀ (order : List Nat) (slots : List (Option α)),
    (settleBatch results order slots).length = slots.length := by
  intro order
  induction order with
  | nil => intro slots; rfl
  | cons k rest ih =>
    intro slots
    show (settleBatch results rest (slots.set k (results k))).length = _
    rw [ih, List.length_set]

theorem settleBatch_getD {α : Type} (results : Nat → Option α) :
    ∀ (order : List Nat) (slots : List (Option α)) (j : Nat), j < slots.length →
    (settleBatch results order slots).getD j none =
      if j ∈ order then results j else slots.getD j none := by
  intro order
  induction order with
  | nil => intro slots j _; simp [settleBatch]
  | cons k rest ih =>
    intro slots j hj
    rw [show settleBatch results (k :: rest) slots =
        settleBatch results rest (slots.set k (results k)) from rfl,
      ih _ j (by rw [List.length_set]; exact hj)]
    by_cases hjr : j ∈ rest
    · rw [if_pos hjr, if_pos (List.mem_cons.mpr (Or.inr hjr))]
    · rw [if_neg hjr]
      by_cases hkj : j = k
      · subst hkj
        rw [if_pos (List.mem_cons.mpr (Or.inl rfl))]
        rw [List.getD_eq_getElem?_getD, List.getElem?_set_eq_of_lt _ hj]
        rfl
      · rw [if_neg (fun h => (List.mem_cons.mp h).elim hkj hjr)]
        rw [List.getD_eq_getElem?_getD, List.getElem?_set_ne (fun h => hkj h.symm),
          ← List.getD_eq_getElem?_getD]

theorem dispatchLoop_length {α : Type} (results : Nat → Option α)
    (orders : Nat → List Nat) (cancelBefore : Nat → Bool) (errorFlag : Bool) :
    ∀ (bs : List Nat) (slots : List (Option α)),
    (dispatchLoop results orders cancelBefore errorFlag bs slots).length = slots.length := by
  intro bs
  induction bs with
  | nil => intro slots; rfl
  | cons b rest ih =>
    intro slots
    show (if cancelBefore b then slots else _).length = _
    by_cases hc : cancelBefore b
    · rw [if_pos hc]
    · rw [if_neg hc]
      by_cases he : errorFlag
      · simp only [if_pos he]
        exact settleBatch_length results (orders b) slots
      · simp only [if_neg he]
        rw [ih, settleBatch_length]

theorem dispatchLoop_getD_clean {α : Type} (results : Nat → Option α)
    (orders : Nat → List Nat) :
    ∀ (bs : List Nat) (slots : List (Option α)) (j : Nat), j < slots.length →
    (dispatchLoop results orders (fun _ => false) false bs slots).getD j none =
      if ∃ b ∈ bs, j ∈ orders b then results j else slots.getD j none := by
  intro bs
  induction bs with
  | nil => intro slots j _; simp [dispatchLoop]
  | cons b rest ih =>
    intro slots j hj
    have hstep : dispatchLoop results orders (fun _ => false) false (b :: rest) slots =
        dispatchLoop results orders (fun _ => false) false rest
          (settleBatch results (orders b) slots) := by
      show (if false = true then _ else _) = _
      rw [if_neg (by simp)]
      show (if false = true then _ else _) = _
      rw [if_neg (by simp)]
    rw [hstep, ih _ j (by rw [settleBatch_length]; exact hj),
      settleBatch_getD results _ _ j hj]
    by_cases hr : ∃ b2 ∈ rest, j ∈ orders b2
    · rw [if_pos hr,
        if_pos ⟨hr.choose, List.mem_cons.mpr (Or.inr hr.choose_spec.1), hr.choose_spec.2⟩]
    · rw [if_neg hr]
      by_cases hb : j ∈ orders b
      · rw [if_pos hb, if_pos ⟨b, List.mem_cons.mpr (Or.inl rfl), hb⟩]
      · rw [if_neg hb, if_neg ?_]
        rintro ⟨b2, hb2, hjb2⟩
        rcases List.mem_cons.mp hb2 with rfl | hb2r
        · exact hb hjb2
        · exact hr ⟨b2, hb2r, hjb2⟩

theorem dispatchAll_getD_perm {α : Type} (n C : Nat)
    (results : Nat → Option α) (orders : Nat → List Nat) (hC : 0 < C)
    (hperm : ∀ b, b < numBatches n C → (orders b).Perm (batchRange n C b))
    (j : Nat) (hj : j < n) :
    (dispatchAll n C results orders (fun _ => false) false).getD j none = results j := by
  unfold dispatchAll
  rw [dispatchLoop_getD_clean results orders _ _ j
    (by rw [List.length_replicate]; exact hj)]
  rw [if_pos ?_]
  have hb : j / C < numBatches n C := by
    have hdm := Nat.div_add_mod (n + C - 1) C
    have hr : (n + C - 1) % C < C := Nat.mod_lt _ hC
    have hmc : ((n + C - 1) / C) * C = C * ((n + C - 1) / C) := Nat.mul_comm _ _
    rw [Nat.div_lt_iff_lt_mul hC]
    unfold numBatches
    omega
  refine ⟨j / C, List.mem_range.mpr hb, ((hperm (j / C) hb).mem_iff).mpr ?_⟩
  have h1 : j / C * C ≤ j := Nat.div_mul_le_self j C
  have hdm2 := Nat.div_add_mod j C
  have hr2 : j % C < C := Nat.mod_lt _ hC
  have hmc2 : j / C * C = C * (j / C) := Nat.mul_comm _ _
  unfold batchRange
  rw [List.mem_range'_1]
  omega

/-- C1: for every chunk count, every concurrency limit, and every
completion order within each batch (any permutation of the batch's chunk
indices), slot `j` of the dispatch loop's result array holds exactly the
result produced for chunk `j`: completion order never changes where a
result is stored. -/
theorem C1_dispatch_order_invariant {α : Type} (n C : Nat)
    (results : Nat → Option α) (orders : Nat → List Nat) (hC : 0 < C)
    (hperm : ∀ b, b < numBatches n C → (orders b).Perm (batchRange n C b))
    (j : Nat) (hj : j < n) :
    (dispatchAll n C results orders (fun _ => false) false).getD j none = results j :=
  dispatchAll_getD_perm n C results orders hC hperm j hj

/-- C1 witness: three chunks dispatched with concurrency limit 2, batch 0
settling in reversed order, still stores chunk 1's result in slot 1. -/
theorem C1_witness :
    (dispatchAll 3 2 c1Results c1Orders (fun _ => false) false).getD 1 none =
      c1Results 1 :=
  C1_dispatch_order_invariant 3 2 c1Results c1Orders (by omega) (by decide) 1 (by omega)

/-! ## Claim C2 -/

theorem filterMap_id_length_lt {α : Type} :
    ∀ (l : List (Option α)) (j : Nat), j < l.length → l.getD j none = none →
    (l.filterMap id).length < l.length := by
  intro l
  induction l with
  | nil => intro j hj _; simp at hj
  | cons s rest ih =>
    intro j hj hnone
    cases j with
    | zero =>
      have hs : s = none := by simpa using hnone
      subst hs
      simp only [List.filterMap_cons, id, List.length_cons]
      exact Nat.lt_succ_of_le (List.length_filterMap_le _ _)
    | succ j2 =>
      cases s with
      | none =>
        simp only [List.filterMap_cons, id, List.length_cons]
        exact Nat.lt_succ_of_le (List.length_filterMap_le _ _)
      | some a =>
        simp only [List.filterMap_cons, id, List.length_cons]
        have := ih j2 (by simpa using hj) (by simpa using hnone)
        omega

theorem filterMap_id_all_isSome {α : Type} :
    ∀ (l : List (Option α)), (l.filterMap id).length = l.length →
    ∀ s ∈ l, s.isSome = true := by
  intro l
  induction l with
  | nil => intro _ s hs; simp at hs
  | cons s rest ih =>
    intro hlen t ht
    cases s with
    | none =>
      exfalso
      have hle := List.length_filterMap_le (@id (Option α)) rest
      simp only [List.filterMap_cons, id, List.length_cons] at hlen
      omega
    | some a =>
      simp only [List.filterMap_cons, id, List.length_cons] at hlen
      rcases List.mem_cons.mp ht with rfl | htr
      · rfl
      · exact ih (by omega) t htr

theorem assembleStep_cases (ctxRate n : Nat) (slots : List (Option AudioBuf)) :
    (((slots.filterMap id).length = n ∧ 0 < (slots.filterMap id).length) →
      assembleStep ctxRate n false slots =
        .assembled (combineAudioBuffers ctxRate (slots.filterMap id))) ∧
    ((slots.filterMap id).length ≠ n →
      assembleStep ctxRate n false slots = .partialFailure) := by
  constructor
  · rintro ⟨h1, h2⟩
    simp [assembleStep, h1, h2]
    omega
  · intro h
    simp [assembleStep, h]

/-- C2: in a session that is not cancelled, if any chunk's remote call
ultimately fails after retries (its dispatch result is `none`, so its
slot stays unfilled), the assembly step never runs the combine branch and
ends in the terminal partial-generation failure; conversely the combine
branch runs only when the number of filled slots equals the number of
chunks, in which case every chunk's result was a success and the combined
value is `combineAudioBuffers` of the filled slots. -/
theorem C2_all_or_nothing_assembly (ctxRate n C : Nat)
    (results : Nat → Option AudioBuf) (orders : Nat → List Nat)
    (hn : 0 < n) (hC : 0 < C)
    (hperm : ∀ b, b < numBatches n C → (orders b).Perm (batchRange n C b)) :
    ((∃ j, j < n ∧ results j = none) →
      (∀ combined, assembleStep ctxRate n false
        (dispatchAll n C results orders (fun _ => false) false) ≠
          .assembled combined) ∧
      assembleStep ctxRate n false
        (dispatchAll n C results orders (fun _ => false) false) = .partialFailure) ∧
    (∀ combined, assembleStep ctxRate n false
        (dispatchAll n C results orders (fun _ => false) false) =
          .assembled combined →
      ((dispatchAll n C results orders (fun _ => false) false).filterMap id).length = n ∧
      (∀ j, j < n → ∃ buf, results j = some buf) ∧
      combined = combineAudioBuffers ctxRate
        ((dispatchAll n C results orders (fun _ => false) false).filterMap id)) := by
  have hlen : (dispatchAll n C results orders (fun _ => false) false).length = n := by
    unfold dispatchAll
    rw [dispatchLoop_length, List.length_replicate]
  constructor
  · rintro ⟨j, hj, hjnone⟩
    have hslot : (dispatchAll n C results orders (fun _ => false) false).getD j none = none := by
      rw [dispatchAll_getD_perm n C results orders hC hperm j hj, hjnone]
    have hlt : ((dispatchAll n C results orders (fun _ => false) false).filterMap id).length < n := by
      have := filterMap_id_length_lt (dispatchAll n C results orders (fun _ => false) false)
        j (by rw [hlen]; exact hj) hslot
      omega
    have hpf := (assembleStep_cases ctxRate n
      (dispatchAll n C results orders (fun _ => false) false)).2 (by omega)
    exact ⟨fun combined hc => by rw [hpf] at hc; exact SessionOutcome.noConfusion hc, hpf⟩
  · intro combined hc
    have hcnt : ((dispatchAll n C results orders (fun _ => false) false).filterMap id).length = n := by
      by_contra hne
      rw [(assembleStep_cases ctxRate n _).2 hne] at hc
      exact SessionOutcome.noConfusion hc
    refine ⟨hcnt, ?_, ?_⟩
    · intro j hj
      have hsome := filterMap_id_all_isSome
        (dispatchAll n C results orders (fun _ => false) false) (by rw [hcnt, hlen])
        ((dispatchAll n C results orders (fun _ => false) false).getD j none)
        (by
          rw [List.getD_eq_getElem?_getD,
            List.getElem?_eq_getElem (by rw [hlen]; exact hj)]
          exact List.getElem_mem _)
      rw [dispatchAll_getD_perm n C results orders hC hperm j hj] at hsome
      exact Option.isSome_iff_exists.mp hsome
    · have := (assembleStep_cases ctxRate n
        (dispatchAll n C results orders (fun _ => false) false)).1
        ⟨hcnt, by rw [hcnt]; exact hn⟩
      rw [this] at hc
      exact (SessionOutcome.assembled.inj hc).symm

/-- C2 witness: two chunks at concurrency limit 1 where chunk 1 fails:
the session ends in the partial-generation failure and no combined buffer
is produced. -/
theorem C2_witness :
    (∀ combined, assembleStep 24000 2 false
      (dispatchAll 2 1 c2Results c2Orders (fun _ => false) false) ≠
        .assembled combined) ∧
    assembleStep 24000 2 false
      (dispatchAll 2 1 c2Results c2Orders (fun _ => false) false) = .partialFailure :=
  (C2_all_or_nothing_assembly 24000 2 1 c2Results c2Orders (by omega) (by omega)
    (fun b _ => List.Perm.refl _)).1 ⟨1, by omega, by decide⟩


/-! ## Claim C9 -/

theorem chunkEvents_no_check (attempts : Nat → Nat → CallOutcome Unit)
    (maxRetries initialDelayMs j : Nat) (ev : SessEv)
    (hmem : ev ∈ chunkEvents attempts maxRetries initialDelayMs j) :
    ∀ b v, ev ≠ .check b v := by
  unfold chunkEvents at hmem
  rcases List.mem_map.mp hmem with ⟨rev, _, rfl⟩
  cases rev with
  | attempt k => intro b v h; exact SessEv.noConfusion h
  | wait d => intro b v h; exact SessEv.noConfusion h

theorem sessionTraceGo_check (n C maxRetries initialDelayMs : Nat)
    (attempts : Nat → Nat → CallOutcome Unit) (cancelAt : Nat) :
    ∀ (bs : List Nat) (pos i b : Nat) (v : Bool),
    (sessionTraceGo n C maxRetries initialDelayMs attempts cancelAt bs pos).1[i]? =
      some (.check b v) →
    v = decide (cancelAt ≤ pos + i) ∧
    (v = true →
      (sessionTraceGo n C maxRetries initialDelayMs attempts cancelAt bs pos).1.length = i + 1 ∧
      (sessionTraceGo n C maxRetries initialDelayMs attempts cancelAt bs pos).2 = true) := by
  intro bs
  induction bs with
  | nil => intro pos i b v h; simp [sessionTraceGo] at h
  | cons b2 rest ih =>
    intro pos i b v h
    by_cases hflag : cancelAt ≤ pos
    · have hstep : sessionTraceGo n C maxRetries initialDelayMs attempts cancelAt
          (b2 :: rest) pos = ([.check b2 true], true) := by
        show (if decide (cancelAt ≤ pos) = true then _ else _) = _
        rw [if_pos (by simpa using hflag)]
      have htr : (sessionTraceGo n C maxRetries initialDelayMs attempts cancelAt
          (b2 :: rest) pos).1 = [.check b2 true] := by rw [hstep]
      rw [htr] at h ⊢
      cases i with
      | zero =>
        rw [List.getElem?_cons_zero] at h
        have hv : v = true := (SessEv.check.inj (Option.some.inj h)).2.symm
        subst hv
        refine ⟨by simp [hflag], fun _ => ⟨rfl, by rw [hstep]⟩⟩
      | succ i2 =>
        rw [List.getElem?_cons_succ, List.getElem?_nil] at h
        exact Option.noConfusion h
    · have hstep : sessionTraceGo n C maxRetries initialDelayMs attempts cancelAt
          (b2 :: rest) pos =
          (.check b2 false ::
            ((batchRange n C b2).flatMap (chunkEvents attempts maxRetries initialDelayMs) ++
              (sessionTraceGo n C maxRetries initialDelayMs attempts cancelAt rest
                (pos + 1 + ((batchRange n C b2).flatMap
                  (chunkEvents attempts maxRetries initialDelayMs)).length)).1),
            (sessionTraceGo n C maxRetries initialDelayMs attempts cancelAt rest
              (pos + 1 + ((batchRange n C b2).flatMap
                (chunkEvents attempts maxRetries initialDelayMs)).length)).2) := by
        show (if decide (cancelAt ≤ pos) = true then _ else _) = _
        rw [if_neg (by simpa using hflag)]
        rfl
      set evs := (batchRange n C b2).flatMap (chunkEvents attempts maxRetries initialDelayMs)
        with hevs
      set next := sessionTraceGo n C maxRetries initialDelayMs attempts cancelAt rest
        (pos + 1 + evs.length) with hnext
      have htr : (sessionTraceGo n C maxRetries initialDelayMs attempts cancelAt
          (b2 :: rest) pos).1 = .check b2 false :: (evs ++ next.1) := by rw [hstep]
      have hsnd : (sessionTraceGo n C maxRetries initialDelayMs attempts cancelAt
          (b2 :: rest) pos).2 = next.2 := by rw [hstep]
      rw [htr] at h ⊢
      cases i with
      | zero =>
        rw [List.getElem?_cons_zero] at h
        have hv : v = false := (SessEv.check.inj (Option.some.inj h)).2.symm
        subst hv
        refine ⟨by simp [hflag], fun hc => by exact Bool.noConfusion hc⟩
      | succ i2 =>
        rw [List.getElem?_cons_succ, List.getElem?_append] at h
        by_cases hlt : i2 < evs.length
        · exfalso
          rw [if_pos hlt] at h
          have hmem : SessEv.check b v ∈ evs := List.getElem?_mem h
          rcases List.mem_flatMap.mp hmem with ⟨j, _, hjm⟩
          exact chunkEvents_no_check attempts maxRetries initialDelayMs j _ hjm b v rfl
        · rw [if_neg hlt] at h
          push_neg at hlt
          have ihres := ih (pos + 1 + evs.length) (i2 - evs.length) b v h
          refine ⟨?_, ?_⟩
          · rw [ihres.1]
            congr 1
            simp only [eq_iff_iff]
            constructor <;> intro <;> omega
          · intro hv
            obtain ⟨hl, h2⟩ := ihres.2 hv
            rw [hsnd]
            constructor
            · simp only [List.length_cons, List.length_append, hl]
              omega
            · exact h2

/-- C9 counterexample: the claim states the cancellation flag is also
checked inside the per-chunk retry loop before waiting out a backoff
delay, so that once the flag is set no further backoff wait is entered.
In the session trace model the flag becomes set at global event time
`cancelAt`; with one chunk whose first call fails retryably
(`c9Attempts`) and `cancelAt = 1` (the flag is set immediately after the
batch-boundary check at time 0), the retry loop still enters its 1000 ms
backoff wait at time 2 ≥ 1: `callGeminiApiWithRetries` never reads the
flag. -/
theorem C9_counterexample :
    (sessionTrace 1 1 3 1000 c9Attempts 1).1 =
      [.check 0 false, .attempt 0 0, .wait 0 1000, .attempt 0 1] ∧
    (sessionTrace 1 1 3 1000 c9Attempts 1).1[2]? = some (.wait 0 1000) ∧
    1 ≤ 2 ∧
    (sessionTrace 1 1 3 1000 c9Attempts 1).2 = false := by
  refine ⟨by decide, by decide, by omega, by decide⟩

/-- C9 (amended): the shared cancellation flag is checked before starting
each dispatch batch — every check event in a session trace reads the
flag's value at its own position — and once a check observes the flag
set, that check is the last event of the dispatch phase (no further batch
is started and no further attempt or backoff wait occurs) and the loop
reports the stop, after which the assembly step with the stop flag set
ends the session in the non-success interrupted outcome, never the
assembled/exported one.  The flag is NOT checked inside the per-chunk
retry loop (`callGeminiApiWithRetries` takes no cancellation input), so a
backoff wait pending in an in-flight chunk still completes after
cancellation (see the counterexample). -/
theorem C9_cancellation_checked_at_batch_boundaries_only :
    (∀ (n C maxRetries initialDelayMs : Nat)
      (attempts : Nat → Nat → CallOutcome Unit) (cancelAt i b : Nat) (v : Bool),
      (sessionTrace n C maxRetries initialDelayMs attempts cancelAt).1[i]? =
        some (.check b v) →
      v = decide (cancelAt ≤ i) ∧
      (v = true →
        (sessionTrace n C maxRetries initialDelayMs attempts cancelAt).1.length = i + 1 ∧
        (sessionTrace n C maxRetries initialDelayMs attempts cancelAt).2 = true)) ∧
    (∀ (ctxRate m : Nat) (slots : List (Option AudioBuf)),
      assembleStep ctxRate m true slots = .interrupted ∧
      ∀ combined, assembleStep ctxRate m true slots ≠ .assembled combined) := by
  constructor
  · intro n C maxRetries initialDelayMs attempts cancelAt i b v h
    have := sessionTraceGo_check n C maxRetries initialDelayMs attempts cancelAt
      (List.range (numBatches n C)) 0 i b v h
    rwa [Nat.zero_add] at this
  · intro ctxRate m slots
    have hi : assembleStep ctxRate m true slots = .interrupted := by
      simp [assembleStep]
    exact ⟨hi, fun combined hc => by
      rw [hi] at hc; exact SessionOutcome.noConfusion hc⟩

/-- C9 witness: the amended claim applied to a concrete cancelled
session (`cancelAt = 0`: the flag is set before the first batch check),
whose trace is the single flag-set check event, and to the assembly step
run with the stop flag set. -/
theorem C9_witness :
    (true = decide ((0 : Nat) ≤ 0) ∧
      (true = true →
        (sessionTrace 1 1 3 1000 c9Attempts 0).1.length = 0 + 1 ∧
        (sessionTrace 1 1 3 1000 c9Attempts 0).2 = true)) ∧
    (assembleStep 24000 2 true [] = .interrupted ∧
      ∀ combined, assembleStep 24000 2 true [] ≠ .assembled combined) :=
  ⟨C9_cancellation_checked_at_batch_boundaries_only.1 1 1 3 1000 c9Attempts 0 0 0 true
      (by decide),
    C9_cancellation_checked_at_batch_boundaries_only.2 24000 2 []⟩

/-! ## Claim C8 -/


theorem trimChars_eq_nil_of_all_space (l : List Char)
    (h : ∀ c ∈ l, isSpaceChar c = true) : trimChars l = [] := by
  unfold trimChars
  have h1 : l.dropWhile isSpaceChar = [] := List.dropWhile_eq_nil_iff.mpr h
  rw [h1]
  rfl

theorem all_space_of_trimChars_eq_nil (l : List Char)
    (h : trimChars l = []) : ∀ c ∈ l, isSpaceChar c = true := by
  unfold trimChars at h
  have h2 : ((l.dropWhile isSpaceChar).reverse).dropWhile isSpaceChar = [] := by
    have := congrArg List.reverse h
    rwa [List.reverse_reverse, List.reverse_nil] at this
  have hdropall : ∀ c ∈ (l.dropWhile isSpaceChar).reverse, isSpaceChar c = true := by
    intro c hc
    exact List.dropWhile_eq_nil_iff.mp h2 c hc
  have hdrop : ∀ c ∈ l.dropWhile isSpaceChar, isSpaceChar c = true := by
    intro c hc
    exact hdropall c (List.mem_reverse.mpr hc)
  intro c hc
  rw [← List.takeWhile_append_dropWhile (p := isSpaceChar) (l := l)] at hc
  rcases List.mem_append.mp hc with h3 | h3
  · exact List.mem_takeWhile_imp h3
  · exact hdrop c h3

theorem trimChars_length_le (l : List Char) : (trimChars l).length ≤ l.length := by
  unfold trimChars
  calc (((l.dropWhile isSpaceChar).reverse).dropWhile isSpaceChar).reverse.length
      = (((l.dropWhile isSpaceChar).reverse).dropWhile isSpaceChar).length := by
        rw [List.length_reverse]
    _ ≤ ((l.dropWhile isSpaceChar).reverse).length := (List.dropWhile_sublist _).length_le
    _ = (l.dropWhile isSpaceChar).length := by rw [List.length_reverse]
    _ ≤ l.length := (List.dropWhile_sublist _).length_le

theorem take_of_prefix {α : Type} (l1 l2 : List α) (n : Nat)
    (hp : l1 <+: l2) (hn : n ≤ l1.length) : l2.take n = l1.take n := by
  obtain ⟨t, rfl⟩ := hp
  rw [List.take_append_eq_append_take, Nat.sub_eq_zero_of_le hn, List.take_zero,
    List.append_nil]

theorem lastIdxOf_lt_length (c : Char) :
    ∀ (l : List Char) (j : Nat), lastIdxOf c l = some j → j < l.length := by
  intro l
  induction l with
  | nil => intro j h; exact Option.noConfusion h
  | cons x xs ih =>
    intro j h
    unfold lastIdxOf at h
    cases hx : lastIdxOf c xs with
    | some j2 =>
      rw [hx] at h
      have hj : j = j2 + 1 := (Option.some.inj h).symm
      subst hj
      exact Nat.succ_lt_succ (ih j2 hx)
    | none =>
      rw [hx] at h
      by_cases hxc : x = c
      · rw [if_pos hxc] at h
        have hj : j = 0 := (Option.some.inj h).symm
        subst hj
        exact Nat.succ_pos _
      · rw [if_neg hxc] at h
        exact Option.noConfusion h

theorem getD_lt_length_of_ne_default (s : List Char) (p : Nat) (c d : Char)
    (hne : c ≠ d) (h : s.getD p d = c) : p < s.length := by
  by_contra hge
  push_neg at hge
  rw [List.getD_eq_getElem?_getD, List.getElem?_eq_none hge] at h
  exact hne h.symm

theorem paragraphBreakLen_pos_space (s : List Char) (p len : Nat)
    (h : paragraphBreakLen s p = some len) :
    0 < len ∧ ∀ c ∈ (s.drop p).take len, isSpaceChar c = true := by
  unfold paragraphBreakLen at h
  simp only [] at h
  by_cases hnl : s.getD p ' ' = '\n'
  · rw [if_pos hnl] at h
    cases hj : lastIdxOf '\n' ((s.drop (p + 1)).takeWhile isSpaceChar) with
    | none => rw [hj] at h; exact Option.noConfusion h
    | some j =>
      rw [hj] at h
      have hlen : len = j + 2 := (Option.some.inj h).symm
      subst hlen
      have hplt : p < s.length := getD_lt_length_of_ne_default s p '\n' ' ' (by decide) hnl
      have hjlt : j < ((s.drop (p + 1)).takeWhile isSpaceChar).length :=
        lastIdxOf_lt_length '\n' _ j hj
      constructor
      · omega
      have hdrop : s.drop p = s[p] :: s.drop (p + 1) := List.drop_eq_getElem_cons hplt
      have hget : s[p] = '\n' := by
        rw [List.getD_eq_getElem?_getD, List.getElem?_eq_getElem hplt] at hnl
        exact hnl
      rw [hdrop, show j + 2 = j + 1 + 1 from rfl, List.take_succ_cons, hget]
      intro c hc
      rcases List.mem_cons.mp hc with rfl | hc2
      · decide
      · have htake : (s.drop (p + 1)).take (j + 1) =
            ((s.drop (p + 1)).takeWhile isSpaceChar).take (j + 1) :=
          take_of_prefix _ _ _ (List.takeWhile_prefix _) (by omega)
        rw [htake] at hc2
        exact List.mem_takeWhile_imp (List.mem_of_mem_take hc2)
  · rw [if_neg hnl] at h
    exact Option.noConfusion h

theorem sentenceBreakLen_pos_space (s : List Char) (p len : Nat)
    (h : sentenceBreakLen s p = some len) :
    0 < len ∧ ∀ c ∈ (s.drop p).take len, isSpaceChar c = true := by
  unfold sentenceBreakLen at h
  simp only [] at h
  split at h
  · exact Option.noConfusion h
  · split at h
    · exact Option.noConfusion h
    · split at h
      · exact Option.noConfusion h
      · split at h
        · exact Option.noConfusion h
        · split at h
          · rename_i hcond
            have hlen : len = wsRunLen s p := (Option.some.inj h).symm
            subst hlen
            refine ⟨hcond.1, ?_⟩
            unfold wsRunLen
            have htake : (s.drop p).take (((s.drop p).takeWhile isSpaceChar).length) =
                ((s.drop p).takeWhile isSpaceChar).take (((s.drop p).takeWhile isSpaceChar).length) :=
              take_of_prefix _ _ _ (List.takeWhile_prefix _) le_rfl
            rw [htake, List.take_length]
            intro c hc
            exact List.mem_takeWhile_imp hc
          · exact Option.noConfusion h

theorem findBreakFrom_spec (brk : List Char → Nat → Option Nat) (s : List Char)
    (i p len : Nat) (h : findBreakFrom brk s i = some (p, len)) :
    i ≤ p ∧ brk s p = some len := by
  unfold findBreakFrom at h
  obtain ⟨a, ha, hfa⟩ := List.exists_of_findSome?_eq_some h
  obtain ⟨len2, hl2, heq⟩ := Option.map_eq_some'.mp hfa
  obtain ⟨rfl, rfl⟩ : a = p ∧ len2 = len := by
    have h1 := congrArg Prod.fst heq
    have h2 := congrArg Prod.snd heq
    exact ⟨h1, h2⟩
  exact ⟨(List.mem_range'_1.mp ha).1, hl2⟩

theorem mem_of_mem_scanSplitGo (brk : List Char → Nat → Option Nat) (s : List Char) :
    ∀ (fuel i : Nat) (piece : List Char),
    piece ∈ scanSplitGo brk s fuel i → ∀ c ∈ piece, c ∈ s := by
  intro fuel
  induction fuel with
  | zero =>
    intro i piece hp c hc
    rcases List.mem_singleton.mp hp with rfl
    exact List.mem_of_mem_drop hc
  | succ fuel ih =>
    intro i piece hp c hc
    unfold scanSplitGo at hp
    cases hfb : findBreakFrom brk s i with
    | none =>
      rw [hfb] at hp
      rcases List.mem_singleton.mp hp with rfl
      exact List.mem_of_mem_drop hc
    | some pl =>
      rw [hfb] at hp
      rcases List.mem_cons.mp hp with rfl | hp2
      · exact List.mem_of_mem_drop (List.mem_of_mem_take hc)
      · exact ih (pl.1 + pl.2) piece hp2 c hc

theorem all_space_of_scanSplitGo_space (brk : List Char → Nat → Option Nat)
    (s : List Char)
    (hsep : ∀ p len, brk s p = some len →
      ∀ c ∈ (s.drop p).take len, isSpaceChar c = true) :
    ∀ (fuel i : Nat),
    (∀ piece ∈ scanSplitGo brk s fuel i, ∀ c ∈ piece, isSpaceChar c = true) →
    ∀ c ∈ s.drop i, isSpaceChar c = true := by
  intro fuel
  induction fuel with
  | zero =>
    intro i hall c hc
    exact hall (s.drop i) (List.mem_singleton.mpr rfl) c hc
  | succ fuel ih =>
    intro i hall c hc
    unfold scanSplitGo at hall
    cases hfb : findBreakFrom brk s i with
    | none =>
      rw [hfb] at hall
      exact hall (s.drop i) (List.mem_singleton.mpr rfl) c hc
    | some pl =>
      rw [hfb] at hall
      obtain ⟨hip, hbrk⟩ := findBreakFrom_spec brk s i pl.1 pl.2 (by rw [hfb])
      have hsplit1 : s.drop i = (s.drop i).take (pl.1 - i) ++ s.drop pl.1 := by
        rw [show s.drop pl.1 = (s.drop i).drop (pl.1 - i) by
          rw [List.drop_drop, show i + (pl.1 - i) = pl.1 from by omega]]
        exact (List.take_append_drop _ _).symm
      have hsplit2 : s.drop pl.1 = (s.drop pl.1).take pl.2 ++ s.drop (pl.1 + pl.2) := by
        rw [show s.drop (pl.1 + pl.2) = (s.drop pl.1).drop pl.2 by
          rw [List.drop_drop]]
        exact (List.take_append_drop _ _).symm
      rw [hsplit1] at hc
      rcases List.mem_append.mp hc with hc1 | hc1
      · exact hall _ (List.mem_cons.mpr (Or.inl rfl)) c hc1
      · rw [hsplit2] at hc1
        rcases List.mem_append.mp hc1 with hc2 | hc2
        · exact hsep pl.1 pl.2 hbrk c hc2
        · exact ih (pl.1 + pl.2)
            (fun piece hpm => hall piece (List.mem_cons.mpr (Or.inr hpm))) c hc2

theorem packParagraph_eq_nil (maxChars : Nat) :
    ∀ (sentences : List (List Char)) (chunks : List (List Char)) (cur : List Char),
    packParagraph maxChars chunks cur sentences = [] →
    chunks = [] ∧ cur = [] ∧ ∀ s ∈ sentences, trimChars s = [] := by
  intro sentences
  induction sentences with
  | nil =>
    intro chunks cur h
    unfold packParagraph at h
    by_cases hcur : cur.isEmpty
    · rw [if_pos hcur] at h
      exact ⟨h, List.isEmpty_iff.mp hcur, fun s hs => absurd hs (List.not_mem_nil s)⟩
    · rw [if_neg hcur] at h
      exact absurd h (by simp)
  | cons s rest ih =>
    intro chunks cur h
    unfold packParagraph at h
    by_cases hts : (trimChars s).isEmpty
    · rw [if_pos hts] at h
      obtain ⟨h1, h2, h3⟩ := ih chunks cur h
      exact ⟨h1, h2, fun t ht => by
        rcases List.mem_cons.mp ht with rfl | ht2
        · exact List.isEmpty_iff.mp hts
        · exact h3 t ht2⟩
    · rw [if_neg hts] at h
      by_cases hfit : (if cur.isEmpty then s.length
          else cur.length + s.length + 1) ≤ maxChars
      · rw [if_pos hfit] at h
        obtain ⟨h1, h2, _⟩ := ih _ _ h
        exfalso
        have : cur ++ (if cur.isEmpty then [] else [' ']) ++ trimChars s ≠ [] := by
          intro hnil
          have := congrArg List.length hnil
          simp only [List.length_append, List.length_nil] at this
          have hts2 : trimChars s ≠ [] := fun he => hts (by rw [he]; rfl)
          have : (trimChars s).length = 0 := by omega
          exact hts2 (List.length_eq_zero.mp this)
        exact this h2
      · rw [if_neg hfit] at h
        obtain ⟨h1, h2, _⟩ := ih _ _ h
        have hts2 : trimChars s ≠ [] := fun he => hts (by rw [he]; rfl)
        exact absurd h2 hts2

theorem packParagraph_bound (maxChars : Nat) (P : List Char → Prop) :
    ∀ (sentences : List (List Char)) (chunks : List (List Char)) (cur : List Char),
    (∀ s ∈ sentences, P (trimChars s)) →
    (∀ ch ∈ chunks, ch.length ≤ maxChars ∨ P ch) →
    (cur = [] ∨ cur.length ≤ maxChars ∨ P cur) →
    ∀ ch ∈ packParagraph maxChars chunks cur sentences,
      ch.length ≤ maxChars ∨ P ch := by
  intro sentences
  induction sentences with
  | nil =>
    intro chunks cur _hs hacc hcur ch hch
    unfold packParagraph at hch
    by_cases hce : cur.isEmpty
    · rw [if_pos hce] at hch
      exact hacc ch hch
    · rw [if_neg hce] at hch
      rcases List.mem_append.mp hch with h1 | h1
      · exact hacc ch h1
      · rcases List.mem_singleton.mp h1 with rfl
        rcases hcur with rfl | h2
        · exact (hce rfl).elim
        · exact h2
  | cons s rest ih =>
    intro chunks cur hs hacc hcur ch hch
    unfold packParagraph at hch
    by_cases hts : (trimChars s).isEmpty
    · rw [if_pos hts] at hch
      exact ih chunks cur (fun t ht => hs t (List.mem_cons.mpr (Or.inr ht)))
        hacc hcur ch hch
    · rw [if_neg hts] at hch
      by_cases hfit : (if cur.isEmpty then s.length
          else cur.length + s.length + 1) ≤ maxChars
      · rw [if_pos hfit] at hch
        refine ih _ _ (fun t ht => hs t (List.mem_cons.mpr (Or.inr ht))) hacc ?_ ch hch
        right; left
        have ht := trimChars_length_le s
        by_cases hce : cur.isEmpty
        · rw [if_pos hce] at hfit
          have hcnil : cur = [] := List.isEmpty_iff.mp hce
          subst hcnil
          rw [if_pos (by rfl)]
          simp only [List.nil_append, List.length_append, List.length_nil]
          omega
        · rw [if_neg hce] at hfit
          rw [if_neg hce]
          simp only [List.length_append, List.length_cons, List.length_nil]
          omega
      · rw [if_neg hfit] at hch
        refine ih _ _ (fun t ht => hs t (List.mem_cons.mpr (Or.inr ht))) ?_
          (Or.inr (Or.inr (hs s (List.mem_cons.mpr (Or.inl rfl))))) ch hch
        intro ch2 hch2
        by_cases hce : cur.isEmpty
        · rw [if_pos hce] at hch2
          exact hacc ch2 hch2
        · rw [if_neg hce] at hch2
          rcases List.mem_append.mp hch2 with h1 | h1
          · exact hacc ch2 h1
          · rcases List.mem_singleton.mp h1 with rfl
            rcases hcur with rfl | h2
            · exact (hce rfl).elim
            · exact h2

theorem segFold_pass (maxChars : Nat) :
    ∀ (ps : List (List Char)) (acc : List (List Char)),
    (∀ para ∈ ps, trimChars para = []) →
    ps.foldl (fun acc paragraph =>
      if (trimChars paragraph).isEmpty then acc
      else packParagraph maxChars acc [] (splitSentences paragraph)) acc = acc := by
  intro ps
  induction ps with
  | nil => intro acc _; rfl
  | cons para rest ih =>
    intro acc hall
    have hpe : (trimChars para).isEmpty = true := by
      rw [hall para (List.mem_cons.mpr (Or.inl rfl))]; rfl
    show List.foldl _ (if (trimChars para).isEmpty then acc else _) rest = acc
    rw [if_pos hpe]
    exact ih acc (fun p hp => hall p (List.mem_cons.mpr (Or.inr hp)))

theorem segFold_eq_nil (maxChars : Nat) :
    ∀ (ps : List (List Char)) (acc : List (List Char)),
    ps.foldl (fun acc paragraph =>
      if (trimChars paragraph).isEmpty then acc
      else packParagraph maxChars acc [] (splitSentences paragraph)) acc = [] →
    acc = [] ∧ ∀ para ∈ ps, trimChars para = [] ∨
      ∀ s ∈ splitSentences para, trimChars s = [] := by
  intro ps
  induction ps with
  | nil =>
    intro acc h
    exact ⟨h, fun para hp => absurd hp (List.not_mem_nil para)⟩
  | cons para rest ih =>
    intro acc h
    rw [List.foldl_cons] at h
    by_cases hpe : (trimChars para).isEmpty
    · rw [if_pos hpe] at h
      obtain ⟨h1, h2⟩ := ih acc h
      refine ⟨h1, fun p hp => ?_⟩
      rcases List.mem_cons.mp hp with rfl | hp2
      · exact Or.inl (List.isEmpty_iff.mp hpe)
      · exact h2 p hp2
    · rw [if_neg hpe] at h
      obtain ⟨h1, h2⟩ := ih _ h
      obtain ⟨h3, _, h5⟩ := packParagraph_eq_nil maxChars _ _ _ h1
      refine ⟨h3, fun p hp => ?_⟩
      rcases List.mem_cons.mp hp with rfl | hp2
      · exact Or.inr h5
      · exact h2 p hp2

theorem segFold_bound (maxChars : Nat) (Q : List Char → Prop) :
    ∀ (ps : List (List Char)) (acc : List (List Char)),
    (∀ para ∈ ps, ∀ s ∈ splitSentences para, Q (trimChars s)) →
    (∀ ch ∈ acc, ch.length ≤ maxChars ∨ Q ch) →
    ∀ ch ∈ ps.foldl (fun acc paragraph =>
      if (trimChars paragraph).isEmpty then acc
      else packParagraph maxChars acc [] (splitSentences paragraph)) acc,
      ch.length ≤ maxChars ∨ Q ch := by
  intro ps
  induction ps with
  | nil => intro acc _ hacc ch hch; exact hacc ch hch
  | cons para rest ih =>
    intro acc hs hacc ch hch
    rw [List.foldl_cons] at hch
    by_cases hpe : (trimChars para).isEmpty
    · rw [if_pos hpe] at hch
      exact ih acc (fun p hp => hs p (List.mem_cons.mpr (Or.inr hp))) hacc ch hch
    · rw [if_neg hpe] at hch
      refine ih _ (fun p hp => hs p (List.mem_cons.mpr (Or.inr hp))) ?_ ch hch
      exact packParagraph_bound maxChars Q (splitSentences para) acc []
        (hs para (List.mem_cons.mpr (Or.inl rfl))) hacc (Or.inl rfl)

theorem text_space_of_chunks_nil (maxChars : Nat) (text : List Char)
    (h : (splitParagraphs text).foldl (fun acc paragraph =>
      if (trimChars paragraph).isEmpty then acc
      else packParagraph maxChars acc [] (splitSentences paragraph)) [] = []) :
    ∀ c ∈ text, isSpaceChar c = true := by
  obtain ⟨_, hparas⟩ := segFold_eq_nil maxChars _ [] h
  have hps : ∀ para ∈ splitParagraphs text, ∀ c ∈ para, isSpaceChar c = true := by
    intro para hp c hc
    rcases hparas para hp with h1 | h1
    · exact all_space_of_trimChars_eq_nil para h1 c hc
    · have hsent : ∀ piece ∈ splitSentences para, ∀ c2 ∈ piece, isSpaceChar c2 = true := by
        intro piece hpm c2 hc2
        exact all_space_of_trimChars_eq_nil piece (h1 piece hpm) c2 hc2
      have hres := all_space_of_scanSplitGo_space sentenceBreakLen para
        (fun p len hb => (sentenceBreakLen_pos_space para p len hb).2)
        (para.length + 1) 0 hsent
      exact hres c (by rw [List.drop_zero]; exact hc)
  intro c hc
  have hres := all_space_of_scanSplitGo_space paragraphBreakLen text
    (fun p len hb => (paragraphBreakLen_pos_space text p len hb).2)
    (text.length + 1) 0 hps
  exact hres c (by rw [List.drop_zero]; exact hc)

/-- C8: for every input text, (1) if the trimmed text is non-empty the
segmentation emits at least one chunk; (2) empty or whitespace-only input
yields zero chunks; (3) every emitted chunk has length at most
`maxChunkChars`, except that an oversized chunk is always exactly the
trim of a single sentence produced by the sentence splitter (an atomic
sentence longer than the cap becomes its own chunk; it is never truncated
or split mid-sentence). -/
theorem C8_segmentation (maxChars : Nat) (text : List Char) :
    (trimChars text ≠ [] → segmentText maxChars text ≠ []) ∧
    (trimChars text = [] → segmentText maxChars text = []) ∧
    (∀ chunk ∈ segmentText maxChars text,
      chunk.length ≤ maxChars ∨
      (maxChars < chunk.length ∧ ∃ para ∈ splitParagraphs text,
        ∃ s ∈ splitSentences para, chunk = trimChars s)) := by
  set chunks := (splitParagraphs text).foldl (fun acc paragraph =>
      if (trimChars paragraph).isEmpty then acc
      else packParagraph maxChars acc [] (splitSentences paragraph)) [] with hchunks
  have hseg : segmentText maxChars text =
      if chunks.isEmpty && !(trimChars text).isEmpty then [trimChars text]
      else chunks := rfl
  refine ⟨?_, ?_, ?_⟩
  · intro htr
    rw [hseg]
    have h2 : (trimChars text).isEmpty = false := by
      cases h3 : (trimChars text).isEmpty
      · rfl
      · exact absurd (List.isEmpty_iff.mp h3) htr
    by_cases hce : chunks.isEmpty
    · rw [hce, h2]
      simp
    · have hcnil : chunks ≠ [] := fun h4 => hce (by rw [h4]; rfl)
      have hce2 : chunks.isEmpty = false := by
        cases h3 : chunks.isEmpty
        · rfl
        · exact absurd (List.isEmpty_iff.mp h3) hcnil
      rw [hce2, h2]
      simpa using hcnil
  · intro htr
    have hall := all_space_of_trimChars_eq_nil text htr
    have hparas_space : ∀ para ∈ splitParagraphs text, trimChars para = [] := by
      intro para hp
      refine trimChars_eq_nil_of_all_space para (fun c hc => hall c ?_)
      exact mem_of_mem_scanSplitGo paragraphBreakLen text _ 0 para hp c hc
    have hchunks_nil : chunks = [] := by
      rw [hchunks]
      exact segFold_pass maxChars _ [] hparas_space
    rw [hseg, hchunks_nil]
    have h2 : (trimChars text).isEmpty = true := by rw [htr]; rfl
    rw [h2]
    simp
  · intro chunk hchunk
    rw [hseg] at hchunk
    by_cases hcnil : chunks = []
    · by_cases htr : trimChars text = []
      · have h2 : (trimChars text).isEmpty = true := by rw [htr]; rfl
        rw [hcnil, h2] at hchunk
        simp at hchunk
      · exfalso
        have hts := text_space_of_chunks_nil maxChars text (by rw [← hchunks]; exact hcnil)
        exact htr (trimChars_eq_nil_of_all_space text hts)
    · have hce : chunks.isEmpty = false := by
        cases h3 : chunks.isEmpty
        · rfl
        · exact absurd (List.isEmpty_iff.mp h3) hcnil
      rw [hce] at hchunk
      simp only [Bool.false_and, Bool.false_eq_true, if_false] at hchunk
      have hb := segFold_bound maxChars
        (fun ch => ∃ para ∈ splitParagraphs text, ∃ s ∈ splitSentences para,
          ch = trimChars s)
        (splitParagraphs text) []
        (fun para hp s hs => ⟨para, hp, s, hs, rfl⟩)
        (fun ch hch => absurd hch (List.not_mem_nil ch))
        chunk (by rw [← hchunks]; exact hchunk)
      rcases hb with h1 | h1
      · exact Or.inl h1
      · by_cases hlen : chunk.length ≤ maxChars
        · exact Or.inl hlen
        · exact Or.inr ⟨by omega, h1⟩


/-- C8 witness: the segmentation theorem applied at the source's chunk
cap to a concrete non-blank text and to a whitespace-only text. -/
theorem C8_witness :
    segmentText MAX_CHARS_PER_AUDIO_CHUNK "Ola. Tudo bem?".toList ≠ [] ∧
    segmentText MAX_CHARS_PER_AUDIO_CHUNK "  \n ".toList = [] :=
  ⟨(C8_segmentation MAX_CHARS_PER_AUDIO_CHUNK "Ola. Tudo bem?".toList).1 (by decide),
   (C8_segmentation MAX_CHARS_PER_AUDIO_CHUNK "  \n ".toList).2.1 (by decide)⟩
